import Mathlib

/-!
# The produce catalogue service (`internal/store.go`, `internal/service.go`)

A shallow embedding of the in-memory store of the produce service, of the
three operations it offers (`Get`, `Put`, `List`) and of the request handlers
that validate a request before they call the store, followed by the
properties that the specification states about them.

Modelling conventions.

* A Go `string` is a Lean `String`; the comparison operators of Go on strings
  (`<`, `>`, `>=`) compare lexicographically, position by position.  The
  embedding compares the code points of the two strings in the same way
  (`strLess`), which is the byte order of Go for every string that is valid
  UTF-8.
* A Go `int` is a Lean `Int` (or a `Nat` where the value is an index or a
  length); no computation of the store comes near the 64-bit bounds.
* The `float32` price is carried around by the store and only compared with
  the constants 0 and 9999 by the handler; it is modelled by the rational
  number it denotes (finite values only), on which these comparisons agree
  with those of Go.
* `[]*item` is a `List item`: the store never writes through a pointer, it
  only replaces pointers, so the pointed-to values are all that matters.
* The read-write mutex is left out: operations are modelled one at a time.
* A run-time panic of Go is an `Except.error`; `Except.ok` is normal
  completion.
* Of a request the handlers see what the libraries hand them: the outcome of
  decoding the payload, of parsing the count, and the strings of the URL.
-/

namespace Produce

/-- Abnormal ends of an operation: the two run-time panics of Go that the code
of the store could raise, and the exhaustion of the loop budget of the model. -/
inductive Panic where
  | indexOutOfRange
  | makesliceCapOutOfRange
  | outOfFuel
deriving DecidableEq, Repr

/-- The record `item` of `store.go`. -/
structure item where
  Code : String
  Name : String
  Price : ℚ
deriving DecidableEq, Repr

/-- The seed data `staticData` of `store.go`. -/
def staticData : List item :=
  [ { Code := "A12T-4GH7-QPL9-3N4M", Name := "Lettuce", Price := 3.46 },
    { Code := "E5T6-9UI3-TH15-QR88", Name := "Peach", Price := 2.99 },
    { Code := "TQ4C-VV6T-75ZX-1RMR", Name := "Gala Apple", Price := 3.59 },
    { Code := "YRT6-72AS-K736-L4AR", Name := "Green Pepper", Price := 0.79 } ]

/-- The struct `Store` of `store.go` (without its mutex). -/
structure Store where
  items : List item
deriving DecidableEq, Repr

/-- The constructor `NewStore`: a fresh slice holding the seed data. -/
def NewStore : Store :=
  { items := [] ++ staticData }

/-- Lexicographic comparison of two character sequences: the first position
where they differ decides, and a proper prefix is smaller. -/
def lessChars : List Char → List Char → Bool
  | _, [] => false
  | [], _ :: _ => true
  | a :: as, b :: bs =>
    if a.toNat < b.toNat then true
    else if b.toNat < a.toNat then false
    else lessChars as bs

/-- The operator `a < b` of Go on strings. -/
def strLess (a b : String) : Bool :=
  lessChars a.data b.data

/-- The indexing `items[i]` of Go, which panics outside of the slice. -/
def index (items : List item) (i : Nat) : Except Panic item :=
  match items[i]? with
  | some it => .ok it
  | none => .error .indexOutOfRange

/-- The closures handed to `sort.Search` by the store, such as
`func(i int) bool { return s.items[i].Code >= code }`: read `items[i]` and
test its code. -/
def probe (items : List item) (test : String → Bool) (i : Nat) : Except Panic Bool :=
  match index items i with
  | .error e => .error e
  | .ok x => .ok (test x.Code)

/-- The loop of `sort.Search` of the Go standard library:
`for i < j { h := int(uint(i+j) >> 1); if !f(h) { i = h + 1 } else { j = h } }`,
with a budget of iterations. -/
def searchLoop (f : Nat → Except Panic Bool) : Nat → Nat → Nat → Except Panic Nat
  | 0, i, j => if i < j then .error .outOfFuel else .ok i
  | fuel + 1, i, j =>
    if i < j then
      match f ((i + j) / 2) with
      | .error e => .error e
      | .ok b =>
        if !b then searchLoop f fuel ((i + j) / 2 + 1) j
        else searchLoop f fuel i ((i + j) / 2)
    else .ok i

/-- The function `sort.Search(n, f)` of the Go standard library: `i, j := 0, n`
and then the loop, which halves `j - i` at every turn, so `n` turns are a
sufficient budget. -/
def sortSearch (n : Nat) (f : Nat → Except Panic Bool) : Except Panic Nat :=
  searchLoop f n 0 n

/-- One step of the insertion sort: `x` goes in front of the first element
whose code is greater. -/
def insertSorted (x : item) : List item → List item
  | [] => [x]
  | y :: ys => if strLess x.Code y.Code then x :: y :: ys else y :: insertSorted x ys

/-- The call `sort.Slice(s.items, func(i, j) { return s.items[i].Code < s.items[j].Code })`.
The Go standard library sorts a slice of at most 12 elements by insertion
sort, which is what this definition does; on longer slices it runs a
pattern-defeating quicksort, whose result is the same whenever no two codes
are equal, since an ascending arrangement of distinct codes is unique. -/
def sortSlice (l : List item) : List item :=
  l.foldl (fun acc x => insertSorted x acc) []

/-- The method `Store.Get` of `store.go`; `none` is the `nil` result. -/
def Store.Get (s : Store) (code : String) : Except Panic (Option item) :=
  match sortSearch s.items.length (probe s.items (fun c => !strLess c code)) with
  | .error e => .error e
  | .ok idx =>
    if idx < s.items.length then
      match index s.items idx with
      | .error e => .error e
      | .ok cur => if cur.Code = code then .ok (some cur) else .ok none
    else .ok none

/-- The method `Store.Put` of `store.go`, returning the store it leaves. -/
def Store.Put (s : Store) (it : item) : Except Panic Store :=
  match sortSearch s.items.length (probe s.items (fun c => !strLess c it.Code)) with
  | .error e => .error e
  | .ok idx =>
    if idx < s.items.length then
      match index s.items idx with
      | .error e => .error e
      | .ok cur =>
        if cur.Code = it.Code then .ok { items := s.items.set idx it }
        else .ok { items := sortSlice (s.items ++ [it]) }
    else .ok { items := sortSlice (s.items ++ [it]) }

/-- The copying loop of `Store.List`:
`for i := 0; i < count; i++ { ret = append(ret, *s.items[i+startIdx]) }`,
started at index `i` with `n` turns left. -/
def copyLoop (items : List item) (startIdx : Nat) : Nat → Nat → List item → Except Panic (List item)
  | 0, _, ret => .ok ret
  | n + 1, i, ret =>
    match index items (i + startIdx) with
    | .error e => .error e
    | .ok x => copyLoop items startIdx n (i + 1) (ret ++ [x])

/-- The method `Store.List` of `store.go`: the page and the next cursor. -/
def Store.List (s : Store) (cursor : String) (count : Int) :
    Except Panic (List item × String) :=
  if count = 0 then .ok ([], cursor)
  else
    match (if cursor ≠ "" then
        sortSearch s.items.length (probe s.items (fun c => strLess cursor c))
      else .ok 0) with
    | .error e => .error e
    | .ok startIdx =>
      let count :=
        if count > (s.items.length : Int) - (startIdx : Int) then
          (s.items.length : Int) - (startIdx : Int)
        else count
      if count = 0 then .ok ([], "")
      else if count < 0 then .error .makesliceCapOutOfRange
      else
        match copyLoop s.items startIdx count.toNat 0 [] with
        | .error e => .error e
        | .ok ret =>
          if (startIdx : Int) + count < (s.items.length : Int) then
            match index ret (count.toNat - 1) with
            | .error e => .error e
            | .ok last => .ok (ret, last.Code)
          else .ok (ret, "")

/-- The store after a sequence of `Put` calls on `s`, in order. -/
def putAll : Store → List item → Except Panic Store
  | s, [] => .ok s
  | s, it :: rest =>
    match s.Put it with
    | .error e => .error e
    | .ok s' => putAll s' rest

/-- The store reached from `NewStore()` by a sequence of `Put` calls. -/
def storeAfter (puts : List item) : Except Panic Store :=
  putAll NewStore puts

/-- The loop of a client that reads the whole listing: call `List` with the
cursor, keep the page, and go on with the returned cursor until it is empty.
The budget bounds the number of calls. -/
def paginate (s : Store) (count : Int) : Nat → String → Except Panic (List item)
  | 0, _ => .error .outOfFuel
  | fuel + 1, cursor =>
    match s.List cursor count with
    | .error e => .error e
    | .ok (page, next) =>
      if next = "" then .ok page
      else
        match paginate s count fuel next with
        | .error e => .error e
        | .ok rest => .ok (page ++ rest)

/-- The items are strictly ascending by code, as compared by Go. -/
def Ascending (l : List item) : Prop :=
  l.Pairwise (fun a b => strLess a.Code b.Code = true)

/-- The items that a listing from `cursor` has to deliver, as the
specification words it: all of them for the empty cursor, and otherwise those
whose code is greater than the cursor. -/
def itemsAfter (l : List item) (cursor : String) : List item :=
  if cursor = "" then l else l.filter (fun x => strLess cursor x.Code)

/-- The next cursor of a page of `n` items out of the items `l` left to
deliver, as the specification words it: the code of the last item of the page
when items remain beyond the page, and the empty string otherwise. -/
def nextCursorOf (l : List item) (n : Nat) : String :=
  if n < l.length then
    match l[n - 1]? with
    | some last => last.Code
    | none => ""
  else ""

/-! ## The request handlers (`internal/service.go`) -/

/-- One piece of the pattern of `codeRegex`: a character class, given by its
inclusive ranges of code points, repeated a fixed number of times. -/
structure Piece where
  ranges : List (Nat × Nat)
  times : Nat
deriving DecidableEq, Repr

/-- The character class `[A-Z0-9]`. -/
def classUpperDigit : List (Nat × Nat) :=
  [('A'.toNat, 'Z'.toNat), ('0'.toNat, '9'.toNat)]

/-- The literal `-`, as a class of one character. -/
def classHyphen : List (Nat × Nat) :=
  [('-'.toNat, '-'.toNat)]

/-- The pattern `^[A-Z0-9]{4}-[A-Z0-9]{4}-[A-Z0-9]{4}-[A-Z0-9]{4}$` of
`codeRegex`, between its two anchors. -/
def codeRegex : List Piece :=
  [ { ranges := classUpperDigit, times := 4 }, { ranges := classHyphen, times := 1 },
    { ranges := classUpperDigit, times := 4 }, { ranges := classHyphen, times := 1 },
    { ranges := classUpperDigit, times := 4 }, { ranges := classHyphen, times := 1 },
    { ranges := classUpperDigit, times := 4 } ]

/-- A character belongs to a class when one of the ranges holds it. -/
def inClass (ranges : List (Nat × Nat)) (c : Char) : Bool :=
  ranges.any (fun r => decide (r.1 ≤ c.toNat) && decide (c.toNat ≤ r.2))

/-- Match `class{n}` at the head of the text; the rest of the text on success. -/
def matchTimes (ranges : List (Nat × Nat)) : Nat → List Char → Option (List Char)
  | 0, cs => some cs
  | _ + 1, [] => none
  | n + 1, c :: cs => if inClass ranges c then matchTimes ranges n cs else none

/-- Match the pieces one after the other from the start of the text (`^`) and
require the end of the text after the last one (`$`). -/
def matchPieces : List Piece → List Char → Bool
  | [], cs => cs.isEmpty
  | p :: ps, cs =>
    match matchTimes p.ranges p.times cs with
    | some rest => matchPieces ps rest
    | none => false

/-- The method `MatchString` of a compiled pattern, for the anchored patterns
made of repeated classes. -/
def MatchString (re : List Piece) (s : String) : Bool :=
  matchPieces re s.data

/-- The function `strings.ToUpper`, which maps every character of the string
through `unicode.ToUpper`; the case table of Unicode is the parameter
`upper`. -/
def ToUpper (upper : Char → Char) (s : String) : String :=
  { data := s.data.map upper }

/-- The struct `errRsp`. -/
structure errRsp where
  Error : String
deriving DecidableEq, Repr

/-- The struct `jsonItem`: the embedded item and its URL. -/
structure jsonItem where
  toItem : item
  Url : String
deriving DecidableEq, Repr

/-- The value that a handler encodes into the body of the response. -/
inductive Encoded where
  | nothing
  | failure (e : errRsp)
  | one (j : jsonItem)
  | many (js : List jsonItem)
deriving DecidableEq, Repr

/-- What a handler writes: the status, the `Link` header of a listing (the
count and the cursor of the next page) and the encoded body. -/
structure Response where
  status : Nat
  link : Option (Int × String)
  body : Encoded
deriving DecidableEq, Repr

/-- The constant `http.StatusOK`. -/
def StatusOK : Nat := 200

/-- The constant `http.StatusBadRequest`. -/
def StatusBadRequest : Nat := 400

/-- The constant `http.StatusNotFound`. -/
def StatusNotFound : Nat := 404

/-- The constant `http.StatusUnprocessableEntity`. -/
def StatusUnprocessableEntity : Nat := 422

/-- The common shape of the error answers: `w.WriteHeader(status)` followed by
`enc.Encode(errRsp{Error: msg})`. -/
def errorResponse (status : Nat) (msg : String) : Response :=
  { status := status, link := none, body := .failure { Error := msg } }

/-- The struct `Service` of `service.go`. -/
structure Service where
  store : Store
deriving DecidableEq, Repr

/-- The method `Service.HandleItemGet`. -/
def Service.HandleItemGet (svc : Service) (code : String) : Except Panic Response :=
  match svc.store.Get code with
  | .error e => .error e
  | .ok none => .ok (errorResponse StatusNotFound "no such item")
  | .ok (some it) =>
    .ok { status := StatusOK, link := none,
          body := .one { toItem := it, Url := "/items/" ++ it.Code } }

/-- The method `Service.HandleItemPut`.  The argument `body` is the outcome of
`json.NewDecoder(r.Body).Decode(&it)`: the text of the error, or the decoded
item (a field that the payload leaves out has its zero value); `code` is the
code of the URL, empty for `/items`.  The result is the service after the
request and the response. -/
def Service.HandleItemPut (svc : Service) (upper : Char → Char) (body : Except String item)
    (code : String) : Except Panic (Service × Response) :=
  match body with
  | .error err =>
    .ok (svc, errorResponse StatusBadRequest ("could not parse payload: " ++ err))
  | .ok it =>
    let it : item := { it with Code := ToUpper upper it.Code }
    let it : item := if it.Code = "" then { it with Code := code } else it
    if code ≠ "" ∧ code ≠ it.Code then
      .ok (svc, errorResponse StatusBadRequest "code in url and body did not match")
    else if it.Code = "" then
      .ok (svc, errorResponse StatusUnprocessableEntity "missing code")
    else if MatchString codeRegex it.Code = false then
      .ok (svc, errorResponse StatusUnprocessableEntity "bad code format")
    else if it.Name = "" then
      .ok (svc, errorResponse StatusUnprocessableEntity "missing name")
    else if it.Price = 0 then
      .ok (svc, errorResponse StatusUnprocessableEntity "missing price")
    else if it.Price < 0 then
      .ok (svc, errorResponse StatusUnprocessableEntity "negative price")
    else if it.Price > 9999 then
      .ok (svc, errorResponse StatusUnprocessableEntity "price must be <= $10000")
    else
      match svc.store.Put it with
      | .error e => .error e
      | .ok st =>
        match Service.HandleItemGet { store := st } it.Code with
        | .error e => .error e
        | .ok rsp => .ok ({ store := st }, rsp)

/-- The method `Service.HandleItemsList`.  The argument `count` is `none` when
the query has no `count`, and otherwise the outcome of `strconv.Atoi` on it;
`cursor` is the `cursor` of the query (empty when absent). -/
def Service.HandleItemsList (svc : Service) (upper : Char → Char)
    (count : Option (Except String Int)) (cursor : String) : Except Panic Response :=
  match (match count with
    | none => (.ok 10 : Except String Int)
    | some parsed => parsed) with
  | .error err => .ok (errorResponse StatusBadRequest ("bad count: " ++ err))
  | .ok count =>
    let cursor := ToUpper upper cursor
    if cursor ≠ "" ∧ MatchString codeRegex cursor = false then
      .ok (errorResponse StatusBadRequest "bad cursor")
    else
      match svc.store.List cursor count with
      | .error e => .error e
      | .ok (items, nextCursor) =>
        .ok { status := StatusOK,
              link := if nextCursor ≠ "" then some (count, nextCursor) else none,
              body := .many (items.map (fun it => { toItem := it, Url := "/items/" ++ it.Code })) }

/-- The service after a sequence of create/update requests, each given by the
outcome of decoding its payload and the code of its URL. -/
def handleAll (upper : Char → Char) : Service → List (Except String item × String) →
    Except Panic Service
  | svc, [] => .ok svc
  | svc, (body, code) :: rest =>
    match svc.HandleItemPut upper body code with
    | .error e => .error e
    | .ok (svc', _) => handleAll upper svc' rest

/-- The data-model constraints on an item: a code of the canonical pattern, a
name and a price above 0 and at most 9999. -/
def validItem (x : item) : Prop :=
  MatchString codeRegex x.Code = true ∧ x.Name ≠ "" ∧ 0 < x.Price ∧ x.Price ≤ 9999

/-- The code format as the specification words it: 19 characters, hyphens at
the positions 4, 9 and 14, and an upper-case letter or a digit elsewhere. -/
def canonicalCode (s : String) : Prop :=
  s.data.length = 19 ∧
    ∀ p ∈ s.data.enum,
      if p.1 = 4 ∨ p.1 = 9 ∨ p.1 = 14 then p.2 = '-' else (p.2.isUpper || p.2.isDigit) = true

/-- The code that `HandleItemPut` goes on with: the upper-cased code of the
payload, or the code of the URL when that one is empty. -/
def requestCode (upper : Char → Char) (bodyCode urlCode : String) : String :=
  if ToUpper upper bodyCode = "" then urlCode else ToUpper upper bodyCode

/-! ## The order of Go on strings -/

theorem lessChars_iff_lt : ∀ (a b : List Char), lessChars a b = true ↔ a < b
  | [], [] => by simp [lessChars]
  | _ :: _, [] => by simp [lessChars]
  | [], _ :: _ => by
    simp only [lessChars, true_iff]
    exact List.Lex.nil
  | a :: as, b :: bs => by
    have ih := lessChars_iff_lt as bs
    have hc : ∀ x y : Char, x.toNat < y.toNat ↔ x < y := fun x y => Iff.rfl
    simp only [lessChars]
    rcases lt_trichotomy a b with h | h | h
    · have h1 : a.toNat < b.toNat := (hc a b).2 h
      simp only [h1, if_true, true_iff]
      exact List.Lex.rel h
    · subst h
      simp only [lt_irrefl, if_false, ih]
      exact (List.Lex.cons_iff).symm
    · have h1 : b.toNat < a.toNat := (hc b a).2 h
      have h2 : ¬ a.toNat < b.toNat := by omega
      simp only [h1, h2, if_true, if_false, Bool.false_eq_true, false_iff, not_lt]
      exact le_of_lt (List.Lex.rel h)

theorem strLess_iff_lt (a b : String) : strLess a b = true ↔ a < b := by
  rw [String.lt_iff_toList_lt]
  exact lessChars_iff_lt a.data b.data

theorem strLess_eq_false_iff (a b : String) : strLess a b = false ↔ b ≤ a := by
  rw [← not_lt, ← strLess_iff_lt]
  simp

theorem strLess_empty_left (b : String) : strLess "" b = true ↔ b ≠ "" := by
  obtain ⟨l⟩ := b
  cases l with
  | nil => simp [strLess, lessChars]
  | cons c cs =>
    simp only [strLess, lessChars, true_iff]
    intro h
    exact absurd (congrArg String.data h) (by simp)

theorem ascending_iff (l : List item) :
    Ascending l ↔ l.Pairwise (fun a b => a.Code < b.Code) := by
  unfold Ascending
  simp only [strLess_iff_lt]

theorem Ascending.lt_of_lt {l : List item} (h : Ascending l) {i j : Nat} {a b : item}
    (hij : i < j) (ha : l[i]? = some a) (hb : l[j]? = some b) : a.Code < b.Code := by
  rw [ascending_iff, List.pairwise_iff_getElem] at h
  obtain ⟨hi, rfl⟩ := List.getElem?_eq_some_iff.1 ha
  obtain ⟨hj, rfl⟩ := List.getElem?_eq_some_iff.1 hb
  exact h i j hi hj hij

theorem Ascending.index_unique {l : List item} (h : Ascending l) {i j : Nat} {a b : item}
    (ha : l[i]? = some a) (hb : l[j]? = some b) (hc : a.Code = b.Code) : i = j := by
  rcases lt_trichotomy i j with hij | hij | hij
  · exact absurd hc (ne_of_lt (h.lt_of_lt hij ha hb))
  · exact hij
  · exact absurd hc.symm (ne_of_lt (h.lt_of_lt hij hb ha))

theorem Ascending.eq_of_code_eq {l : List item} (h : Ascending l) {a b : item}
    (ha : a ∈ l) (hb : b ∈ l) (hc : a.Code = b.Code) : a = b := by
  obtain ⟨i, hi⟩ := List.mem_iff_getElem?.1 ha
  obtain ⟨j, hj⟩ := List.mem_iff_getElem?.1 hb
  have := h.index_unique hi hj hc
  subst this
  rw [hi] at hj
  exact Option.some.inj hj

/-! ## Binary search -/

theorem probe_eq {items : List item} {test : String → Bool} {i : Nat} {x : item}
    (h : items[i]? = some x) : probe items test i = .ok (test x.Code) := by
  simp [probe, index, h]

theorem searchLoop_spec (items : List item) (test : String → Bool)
    (hmono : ∀ (i j : Nat) (a b : item), i < j → items[i]? = some a → items[j]? = some b →
      test a.Code = true → test b.Code = true) :
    ∀ fuel i j, i ≤ j → j ≤ items.length → j - i ≤ fuel →
      (∀ (k : Nat) (a : item), k < i → items[k]? = some a → test a.Code = false) →
      (∀ (k : Nat) (a : item), j ≤ k → items[k]? = some a → test a.Code = true) →
      ∃ r, searchLoop (probe items test) fuel i j = .ok r ∧ r ≤ items.length ∧
        (∀ (k : Nat) (a : item), k < r → items[k]? = some a → test a.Code = false) ∧
        (∀ (k : Nat) (a : item), r ≤ k → items[k]? = some a → test a.Code = true) := by
  intro fuel
  induction fuel with
  | zero =>
    intro i j hij hj hfuel hlo hhi
    have : i = j := by omega
    subst this
    exact ⟨i, by simp [searchLoop], hj, hlo, hhi⟩
  | succ fuel ih =>
    intro i j hij hj hfuel hlo hhi
    by_cases hlt : i < j
    · have hh1 : i ≤ (i + j) / 2 := by omega
      have hh2 : (i + j) / 2 < j := by omega
      have hlen : (i + j) / 2 < items.length := by omega
      have hx : items[(i + j) / 2]? = some items[(i + j) / 2] := List.getElem?_eq_getElem hlen
      simp only [searchLoop, hlt, if_true, probe_eq hx]
      cases htest : test (items[(i + j) / 2]).Code with
      | false =>
        simp only [Bool.not_false, if_true]
        apply ih _ _ (by omega) hj (by omega) _ hhi
        intro k a hk ha
        by_cases hk2 : k < (i + j) / 2
        · cases hta : test a.Code with
          | false => rfl
          | true =>
            have := hmono _ _ _ _ hk2 ha hx hta
            rw [htest] at this
            exact absurd this (by simp)
        · have : k = (i + j) / 2 := by omega
          subst this
          rw [hx] at ha
          cases ha
          exact htest
      | true =>
        simp only [Bool.not_true, Bool.false_eq_true, if_false]
        apply ih _ _ hh1 (by omega) (by omega) hlo
        intro k a hk ha
        by_cases hk2 : (i + j) / 2 < k
        · exact hmono _ _ _ _ hk2 hx ha htest
        · have : k = (i + j) / 2 := by omega
          subst this
          rw [hx] at ha
          cases ha
          exact htest
    · have : i = j := by omega
      subst this
      exact ⟨i, by simp [searchLoop], hj, hlo, hhi⟩

theorem sortSearch_spec (items : List item) (test : String → Bool)
    (hmono : ∀ (i j : Nat) (a b : item), i < j → items[i]? = some a → items[j]? = some b →
      test a.Code = true → test b.Code = true) :
    ∃ r, sortSearch items.length (probe items test) = .ok r ∧ r ≤ items.length ∧
      (∀ (k : Nat) (a : item), k < r → items[k]? = some a → test a.Code = false) ∧
      (∀ (k : Nat) (a : item), r ≤ k → items[k]? = some a → test a.Code = true) := by
  apply searchLoop_spec items test hmono items.length 0 items.length (Nat.zero_le _)
    (Nat.le_refl _) (by omega)
  · intro k a hk
    exact absurd hk (Nat.not_lt_zero _)
  · intro k a hk ha
    rw [List.getElem?_eq_none hk] at ha
    cases ha

theorem search_ge_spec {items : List item} (h : Ascending items) (code : String) :
    ∃ r, sortSearch items.length (probe items (fun c => !strLess c code)) = .ok r ∧
      r ≤ items.length ∧
      (∀ (k : Nat) (a : item), k < r → items[k]? = some a → a.Code < code) ∧
      (∀ (k : Nat) (a : item), r ≤ k → items[k]? = some a → code ≤ a.Code) := by
  obtain ⟨r, hr, hlen, hlo, hhi⟩ := sortSearch_spec items (fun c => !strLess c code) (by
    intro i j a b hij ha hb hta
    have hab := h.lt_of_lt hij ha hb
    simp only [Bool.not_eq_true', strLess_eq_false_iff] at hta ⊢
    exact le_of_lt (lt_of_le_of_lt hta hab))
  refine ⟨r, hr, hlen, ?_, ?_⟩
  · intro k a hk ha
    have := hlo k a hk ha
    simpa [strLess_iff_lt] using this
  · intro k a hk ha
    have := hhi k a hk ha
    simpa [strLess_eq_false_iff] using this

theorem search_gt_spec {items : List item} (h : Ascending items) (cursor : String) :
    ∃ r, sortSearch items.length (probe items (fun c => strLess cursor c)) = .ok r ∧
      r ≤ items.length ∧
      (∀ (k : Nat) (a : item), k < r → items[k]? = some a → strLess cursor a.Code = false) ∧
      (∀ (k : Nat) (a : item), r ≤ k → items[k]? = some a → strLess cursor a.Code = true) := by
  apply sortSearch_spec items (fun c => strLess cursor c)
  intro i j a b hij ha hb hta
  have hab := h.lt_of_lt hij ha hb
  simp only [strLess_iff_lt] at hta ⊢
  exact lt_trans hta hab

/-! ## Insertion sort -/

theorem insertSorted_eq_append (x : item) :
    ∀ (l : List item), (∀ y ∈ l, strLess x.Code y.Code = false) → insertSorted x l = l ++ [x]
  | [], _ => rfl
  | y :: ys, h => by
    have hy : strLess x.Code y.Code = false := h y (List.mem_cons_self _ _)
    have ih := insertSorted_eq_append x ys (fun z hz => h z (List.mem_cons_of_mem _ hz))
    simp [insertSorted, hy, ih]

theorem mem_insertSorted (x y : item) : ∀ (l : List item), y ∈ insertSorted x l ↔ y = x ∨ y ∈ l
  | [] => by simp [insertSorted]
  | z :: zs => by
    have ih := mem_insertSorted x y zs
    by_cases hz : strLess x.Code z.Code = true
    · simp [insertSorted, hz]
    · simp only [insertSorted, hz, if_false, List.mem_cons, ih, Bool.false_eq_true]
      tauto

theorem length_insertSorted (x : item) : ∀ (l : List item), (insertSorted x l).length = l.length + 1
  | [] => rfl
  | z :: zs => by
    have ih := length_insertSorted x zs
    by_cases hz : strLess x.Code z.Code = true
    · simp [insertSorted, hz]
    · simp [insertSorted, hz, ih]

theorem insertSorted_ascending (x : item) :
    ∀ (l : List item), Ascending l → (∀ y ∈ l, y.Code ≠ x.Code) → Ascending (insertSorted x l)
  | [], _, _ => by simp [insertSorted, Ascending]
  | z :: zs, h, hne => by
    have hz : (∀ w ∈ zs, strLess z.Code w.Code = true) ∧ Ascending zs := by
      simpa [Ascending] using h
    by_cases hxz : strLess x.Code z.Code = true
    · simp only [insertSorted, hxz, if_true]
      unfold Ascending
      refine List.Pairwise.cons ?_ h
      intro w hw
      rcases List.mem_cons.1 hw with rfl | hw
      · exact hxz
      · rw [strLess_iff_lt] at hxz ⊢
        exact lt_trans hxz ((strLess_iff_lt _ _).1 (hz.1 w hw))
    · simp only [insertSorted, hxz, if_false, Bool.false_eq_true]
      have ih := insertSorted_ascending x zs hz.2 (fun y hy => hne y (List.mem_cons_of_mem _ hy))
      unfold Ascending
      refine List.Pairwise.cons ?_ ih
      intro w hw
      rcases (mem_insertSorted x w zs).1 hw with rfl | hw
      · have h1 : z.Code ≤ w.Code := (strLess_eq_false_iff _ _).1 (by simpa using hxz)
        exact (strLess_iff_lt _ _).2 (lt_of_le_of_ne h1 (hne z (List.mem_cons_self _ _)))
      · exact hz.1 w hw

theorem sortSlice_append (l : List item) (x : item) :
    sortSlice (l ++ [x]) = insertSorted x (sortSlice l) := by
  simp [sortSlice, List.foldl_append]

theorem sortSlice_of_ascending (l : List item) : Ascending l → sortSlice l = l := by
  induction l using List.reverseRecOn with
  | nil => intro _; rfl
  | append_singleton l x ih =>
    intro h
    have h2 : Ascending l ∧ ∀ y ∈ l, strLess y.Code x.Code = true := by
      unfold Ascending at h ⊢
      rw [List.pairwise_append] at h
      refine ⟨h.1, fun y hy => h.2.2 y hy x (List.mem_singleton_self x)⟩
    rw [sortSlice_append, ih h2.1]
    apply insertSorted_eq_append
    intro y hy
    rw [strLess_eq_false_iff]
    exact le_of_lt ((strLess_iff_lt _ _).1 (h2.2 y hy))

/-! ## `Put` and `Get` on an ascending sequence -/

theorem search_ge_found {items : List item} (h : Ascending items) {i : Nat} {old : item}
    (hold : items[i]? = some old) :
    sortSearch items.length (probe items (fun c => !strLess c old.Code)) = .ok i := by
  obtain ⟨r, hr, _, hlo, hhi⟩ := search_ge_spec h old.Code
  have h1 : r ≤ i := by
    by_contra hcon
    exact lt_irrefl _ (hlo i old (by omega) hold)
  have hi : i < items.length := (List.getElem?_eq_some_iff.1 hold).1
  have h2 : ¬ r < i := by
    intro hri
    have hcur : items[r]? = some items[r] := List.getElem?_eq_getElem (by omega)
    have ha := hhi r _ (Nat.le_refl _) hcur
    have hb := h.lt_of_lt hri hcur hold
    exact absurd (lt_of_le_of_lt ha hb) (lt_irrefl _)
  have : r = i := by omega
  rw [hr, this]

theorem index_eq {items : List item} {i : Nat} {x : item} (h : items[i]? = some x) :
    index items i = .ok x := by
  simp [index, h]

theorem Put_found {s : Store} (h : Ascending s.items) {i : Nat} {old it : item}
    (hold : s.items[i]? = some old) (hc : old.Code = it.Code) :
    s.Put it = .ok { items := s.items.set i it } := by
  have hi : i < s.items.length := (List.getElem?_eq_some_iff.1 hold).1
  have hs := search_ge_found h hold
  rw [hc] at hs
  simp [Store.Put, hs, hi, index_eq hold, hc]

theorem Put_fresh {s : Store} (h : Ascending s.items) {it : item}
    (hfresh : ∀ x ∈ s.items, x.Code ≠ it.Code) :
    s.Put it = .ok { items := insertSorted it s.items } := by
  obtain ⟨r, hr, _, _, _⟩ := search_ge_spec h it.Code
  have hsort : sortSlice (s.items ++ [it]) = insertSorted it s.items := by
    rw [sortSlice_append, sortSlice_of_ascending _ h]
  by_cases hlt : r < s.items.length
  · have hcur : s.items[r]? = some s.items[r] := List.getElem?_eq_getElem hlt
    have hne : (s.items[r]).Code ≠ it.Code := hfresh _ (List.getElem_mem hlt)
    simp [Store.Put, hr, hlt, index_eq hcur, hne, hsort]
  · simp [Store.Put, hr, hlt, hsort]

theorem Get_found {s : Store} (h : Ascending s.items) {x : item} (hx : x ∈ s.items) :
    s.Get x.Code = .ok (some x) := by
  obtain ⟨i, hi⟩ := List.mem_iff_getElem?.1 hx
  have hlen : i < s.items.length := (List.getElem?_eq_some_iff.1 hi).1
  simp [Store.Get, search_ge_found h hi, hlen, index_eq hi]

theorem ascending_set {l : List item} (h : Ascending l) {i : Nat} {old it : item}
    (hold : l[i]? = some old) (hc : old.Code = it.Code) : Ascending (l.set i it) := by
  have hmap : (l.set i it).map item.Code = l.map item.Code := by
    rw [List.map_set]
    apply List.ext_getElem?
    intro n
    rw [List.getElem?_set]
    split
    · next hin =>
      subst hin
      obtain ⟨hlen, hget⟩ := List.getElem?_eq_some_iff.1 hold
      simp [hlen, hget, hc]
    · rfl
  have key : ∀ m : List item, Ascending m ↔ (m.map item.Code).Pairwise (fun a b => strLess a b = true) := by
    intro m
    unfold Ascending
    rw [List.pairwise_map]
  rw [key, hmap, ← key]
  exact h

theorem exists_code_or_fresh (l : List item) (c : String) :
    (∃ (i : Nat) (old : item), l[i]? = some old ∧ old.Code = c) ∨ (∀ x ∈ l, x.Code ≠ c) := by
  by_cases hex : ∃ x ∈ l, x.Code = c
  · obtain ⟨x, hx, hxc⟩ := hex
    obtain ⟨i, hi⟩ := List.mem_iff_getElem?.1 hx
    exact Or.inl ⟨i, x, hi, hxc⟩
  · right
    intro x hx hxc
    exact hex ⟨x, hx, hxc⟩

theorem Put_spec {s : Store} (h : Ascending s.items) (it : item) :
    ∃ s', s.Put it = .ok s' ∧ Ascending s'.items ∧ it ∈ s'.items := by
  rcases exists_code_or_fresh s.items it.Code with ⟨i, old, hold, hc⟩ | hfresh
  · refine ⟨_, Put_found h hold hc, ascending_set h hold hc, ?_⟩
    have hlen : i < s.items.length := (List.getElem?_eq_some_iff.1 hold).1
    exact List.mem_iff_getElem?.2 ⟨i, by simp [List.getElem?_set, hlen]⟩
  · refine ⟨_, Put_fresh h hfresh, insertSorted_ascending _ _ h hfresh, ?_⟩
    exact (mem_insertSorted _ _ _).2 (Or.inl rfl)

theorem staticData_ascending : Ascending NewStore.items := by
  unfold Ascending
  decide

theorem putAll_spec : ∀ (puts : List item) (s : Store), Ascending s.items →
    ∃ s', putAll s puts = .ok s' ∧ Ascending s'.items
  | [], s, h => ⟨s, rfl, h⟩
  | it :: rest, s, h => by
    obtain ⟨s1, h1, h2, _⟩ := Put_spec h it
    obtain ⟨s2, h3, h4⟩ := putAll_spec rest s1 h2
    exact ⟨s2, by simp [putAll, h1, h3], h4⟩

theorem storeAfter_spec (puts : List item) :
    ∃ s, storeAfter puts = .ok s ∧ Ascending s.items :=
  putAll_spec puts NewStore staticData_ascending

/-! ## `List` on an ascending sequence -/

theorem filter_eq_drop (p : item → Bool) :
    ∀ (l : List item) (r : Nat),
      (∀ (k : Nat) (a : item), k < r → l[k]? = some a → p a = false) →
      (∀ (k : Nat) (a : item), r ≤ k → l[k]? = some a → p a = true) →
      l.filter p = l.drop r
  | [], r, _, _ => by simp
  | x :: xs, 0, _, hhi => by
    rw [List.drop_zero, List.filter_eq_self]
    intro a ha
    obtain ⟨k, hk⟩ := List.mem_iff_getElem?.1 ha
    exact hhi k a (Nat.zero_le _) hk
  | x :: xs, r + 1, hlo, hhi => by
    have hx : p x = false := hlo 0 x (Nat.succ_pos _) (by simp)
    have ih := filter_eq_drop p xs r
      (fun k a hk ha => hlo (k + 1) a (by omega) (by simpa using ha))
      (fun k a hk ha => hhi (k + 1) a (by omega) (by simpa using ha))
    simp [List.filter_cons, hx, ih]

theorem copyLoop_spec (items : List item) (startIdx : Nat) :
    ∀ (n i : Nat) (ret : List item), i + startIdx + n ≤ items.length →
      copyLoop items startIdx n i ret = .ok (ret ++ (items.drop (i + startIdx)).take n)
  | 0, i, ret, _ => by simp [copyLoop]
  | n + 1, i, ret, h => by
    have hlt : i + startIdx < items.length := by omega
    have hx : items[i + startIdx]? = some items[i + startIdx] := List.getElem?_eq_getElem hlt
    have ih := copyLoop_spec items startIdx n (i + 1) (ret ++ [items[i + startIdx]]) (by omega)
    have hd : List.drop (i + startIdx) items
        = items[i + startIdx] :: List.drop (i + 1 + startIdx) items := by
      rw [List.drop_eq_getElem_cons hlt]
      congr 2
      omega
    simp only [copyLoop, index_eq hx, ih, hd, List.take_succ_cons, List.append_assoc,
      List.singleton_append]

/-- The start index that `List` computes is the position where the items to
deliver begin. -/
theorem startIdx_spec {items : List item} (h : Ascending items) (cursor : String) :
    ∃ r, (if cursor ≠ "" then
          sortSearch items.length (probe items (fun c => strLess cursor c))
        else .ok 0) = .ok r ∧ r ≤ items.length ∧ items.drop r = itemsAfter items cursor := by
  by_cases hc : cursor = ""
  · exact ⟨0, by simp [hc], Nat.zero_le _, by simp [itemsAfter, hc]⟩
  · obtain ⟨r, hr, hlen, hlo, hhi⟩ := search_gt_spec h cursor
    refine ⟨r, by simp [hc, hr], hlen, ?_⟩
    simp only [itemsAfter, hc, if_false]
    exact (filter_eq_drop (fun x => strLess cursor x.Code) items r hlo hhi).symm

theorem List_spec {s : Store} (h : Ascending s.items) (cursor : String) {count : Int}
    (hcount : 1 ≤ count) :
    s.List cursor count = .ok ((itemsAfter s.items cursor).take count.toNat,
      nextCursorOf (itemsAfter s.items cursor) count.toNat) := by
  obtain ⟨r, hr, hlen, hdrop⟩ := startIdx_spec h cursor
  have hlenS : (itemsAfter s.items cursor).length = s.items.length - r := by
    rw [← hdrop, List.length_drop]
  have hc0 : count ≠ 0 := by omega
  unfold Store.List
  rw [if_neg hc0, hr]
  simp only []
  by_cases hbig : count > (s.items.length : Int) - (r : Int)
  · -- the request exceeds what is left: the page is all of it
    rw [if_pos hbig]
    by_cases hzero : (s.items.length : Int) - (r : Int) = 0
    · have hnil : itemsAfter s.items cursor = [] := by
        apply List.eq_nil_of_length_eq_zero
        omega
      simp [hzero, hnil, nextCursorOf]
    · have hnn : ¬ ((s.items.length : Int) - (r : Int) < 0) := by omega
      have htn : ((s.items.length : Int) - (r : Int)).toNat = s.items.length - r := by omega
      have hcl := copyLoop_spec s.items r (s.items.length - r) 0 [] (by omega)
      have htake : List.take count.toNat (itemsAfter s.items cursor)
          = itemsAfter s.items cursor := by
        apply List.take_of_length_le
        omega
      have hnext : nextCursorOf (itemsAfter s.items cursor) count.toNat = "" := by
        unfold nextCursorOf
        rw [if_neg (by omega)]
      rw [if_neg hzero, if_neg hnn, htn, hcl, htake, hnext]
      simp only [Nat.zero_add, List.nil_append]
      rw [if_neg (by omega), hdrop]
      congr 2
      rw [← hdrop]
      apply List.take_of_length_le
      rw [List.length_drop]
  · rw [if_neg hbig]
    have hnn : ¬ (count < 0) := by omega
    have hcl := copyLoop_spec s.items r count.toNat 0 [] (by omega)
    rw [if_neg hc0, if_neg hnn, hcl]
    simp only [Nat.zero_add, List.nil_append, hdrop]
    by_cases hmore : (r : Int) + count < (s.items.length : Int)
    · have hlt : count.toNat < (itemsAfter s.items cursor).length := by omega
      have hidx : count.toNat - 1 < (itemsAfter s.items cursor).length := by omega
      have hlast : (List.take count.toNat (itemsAfter s.items cursor))[count.toNat - 1]?
          = some (itemsAfter s.items cursor)[count.toNat - 1] := by
        rw [List.getElem?_take_of_lt (by omega)]
        exact List.getElem?_eq_getElem hidx
      rw [if_pos hmore, index_eq hlast]
      simp [nextCursorOf, hlt, List.getElem?_eq_getElem hidx]
    · have hnext : nextCursorOf (itemsAfter s.items cursor) count.toNat = "" := by
        unfold nextCursorOf
        rw [if_neg (by omega)]
      rw [if_neg hmore, hnext]

/-! ## Stores reached by `Put` calls -/

theorem Put_mem {s s' : Store} (h : Ascending s.items) {it : item} (hput : s.Put it = .ok s') :
    ∀ x ∈ s'.items, x = it ∨ x ∈ s.items := by
  intro x hx
  rcases exists_code_or_fresh s.items it.Code with ⟨i, old, hold, hc⟩ | hfresh
  · rw [Put_found h hold hc] at hput
    cases hput
    rcases List.mem_or_eq_of_mem_set hx with h1 | h1
    · exact Or.inr h1
    · exact Or.inl h1
  · rw [Put_fresh h hfresh] at hput
    cases hput
    exact (mem_insertSorted _ _ _).1 hx

theorem putAll_forall (P : item → Prop) : ∀ (puts : List item) (s : Store), Ascending s.items →
    (∀ x ∈ s.items, P x) → (∀ x ∈ puts, P x) →
    ∃ s', putAll s puts = .ok s' ∧ Ascending s'.items ∧ ∀ x ∈ s'.items, P x
  | [], s, h, hP, _ => ⟨s, rfl, h, hP⟩
  | it :: rest, s, h, hP, hputs => by
    obtain ⟨s1, h1, h2, _⟩ := Put_spec h it
    have hP1 : ∀ x ∈ s1.items, P x := by
      intro x hx
      rcases Put_mem h h1 x hx with rfl | hx
      · exact hputs _ (List.mem_cons_self _ _)
      · exact hP x hx
    obtain ⟨s2, h3, h4, h5⟩ := putAll_forall P rest s1 h2 hP1
      (fun x hx => hputs x (List.mem_cons_of_mem _ hx))
    exact ⟨s2, by simp [putAll, h1, h3], h4, h5⟩

theorem storeAfter_forall (P : item → Prop) (puts : List item) (hseed : ∀ x ∈ staticData, P x)
    (hputs : ∀ x ∈ puts, P x) :
    ∃ s, storeAfter puts = .ok s ∧ Ascending s.items ∧ ∀ x ∈ s.items, P x :=
  putAll_forall P puts NewStore staticData_ascending hseed hputs

theorem ascending_of_storeAfter {puts : List item} {s : Store} (hs : storeAfter puts = .ok s) :
    Ascending s.items := by
  obtain ⟨s0, h0, hasc⟩ := storeAfter_spec puts
  rw [h0] at hs
  cases hs
  exact hasc

theorem nodup_codes_of_ascending {l : List item} (h : Ascending l) :
    (l.map item.Code).Nodup := by
  unfold List.Nodup
  rw [List.pairwise_map]
  rw [ascending_iff] at h
  exact h.imp (fun hab => ne_of_lt hab)

/-! ## The pagination loop -/

theorem mem_of_mem_itemsAfter {l : List item} {cursor : String} {x : item}
    (hx : x ∈ itemsAfter l cursor) : x ∈ l := by
  unfold itemsAfter at hx
  split at hx
  · exact hx
  · exact (List.mem_filter.1 hx).1

theorem itemsAfter_last {items : List item} (h : Ascending items)
    (hne : ∀ x ∈ items, x.Code ≠ "") (cursor : String) {n : Nat} {last : item}
    (hn : 1 ≤ n) (hlast : (itemsAfter items cursor)[n - 1]? = some last) :
    itemsAfter items last.Code = (itemsAfter items cursor).drop n := by
  obtain ⟨r, _, _, hdrop⟩ := startIdx_spec h cursor
  rw [← hdrop] at hlast ⊢
  rw [List.getElem?_drop] at hlast
  have hmem : last ∈ items := List.mem_iff_getElem?.2 ⟨_, hlast⟩
  rw [List.drop_drop]
  simp only [itemsAfter, hne last hmem, if_false]
  have hrn : r + n = r + (n - 1) + 1 := by omega
  rw [hrn]
  apply filter_eq_drop
  · intro k a hk ha
    rw [strLess_eq_false_iff]
    by_cases hk2 : k < r + (n - 1)
    · exact le_of_lt (h.lt_of_lt hk2 ha hlast)
    · have : k = r + (n - 1) := by omega
      subst this
      rw [hlast] at ha
      cases ha
      exact le_refl _
  · intro k a hk ha
    rw [strLess_iff_lt]
    exact h.lt_of_lt (by omega) hlast ha

theorem paginate_spec {s : Store} (h : Ascending s.items) (hne : ∀ x ∈ s.items, x.Code ≠ "")
    {count : Int} (hcount : 1 ≤ count) :
    ∀ (fuel : Nat) (cursor : String), (itemsAfter s.items cursor).length < fuel →
      paginate s count fuel cursor = .ok (itemsAfter s.items cursor)
  | 0, _, hf => absurd hf (Nat.not_lt_zero _)
  | fuel + 1, cursor, hf => by
    have hn : 1 ≤ count.toNat := by omega
    simp only [paginate, List_spec h cursor hcount]
    by_cases hlt : count.toNat < (itemsAfter s.items cursor).length
    · have hidx : count.toNat - 1 < (itemsAfter s.items cursor).length := by omega
      have hlast := List.getElem?_eq_getElem hidx
      have hmem : (itemsAfter s.items cursor)[count.toNat - 1] ∈ s.items :=
        mem_of_mem_itemsAfter (List.getElem_mem hidx)
      have hnext : nextCursorOf (itemsAfter s.items cursor) count.toNat
          = ((itemsAfter s.items cursor)[count.toNat - 1]).Code := by
        simp [nextCursorOf, hlt, hlast]
      have hrec := itemsAfter_last h hne cursor hn hlast
      have ih := paginate_spec h hne hcount fuel
        ((itemsAfter s.items cursor)[count.toNat - 1]).Code (by
          rw [hrec, List.length_drop]
          omega)
      rw [hnext, if_neg (hne _ hmem), ih, hrec]
      simp
    · have hnext : nextCursorOf (itemsAfter s.items cursor) count.toNat = "" := by
        unfold nextCursorOf
        rw [if_neg hlt]
      rw [hnext]
      simp only [if_true]
      rw [List.take_of_length_le (by omega)]

/-! ## Auxiliary facts for the listing claims -/

theorem List_whole {s : Store} (h : Ascending s.items) {count : Int}
    (hcount : (s.items.length : Int) ≤ count) : s.List "" count = .ok (s.items, "") := by
  by_cases h0 : count = 0
  · have hnil : s.items = [] := by
      apply List.eq_nil_of_length_eq_zero
      omega
    simp [Store.List, h0, hnil]
  · have h1 : 1 ≤ count := by omega
    have hS : itemsAfter s.items "" = s.items := by simp [itemsAfter]
    rw [List_spec h "" h1, hS, List.take_of_length_le (by omega)]
    have hnext : nextCursorOf s.items count.toNat = "" := by
      unfold nextCursorOf
      rw [if_neg (by omega)]
    rw [hnext]

theorem ascending_itemsAfter {l : List item} (h : Ascending l) (cursor : String) :
    Ascending (itemsAfter l cursor) := by
  unfold itemsAfter
  split
  · exact h
  · exact List.Pairwise.sublist (List.filter_sublist l) h

theorem filter_code_eq : ∀ (l : List item) (b : item), Ascending l → b ∈ l →
    l.filter (fun x => decide (x.Code = b.Code)) = [b]
  | [], b, _, hb => by cases hb
  | y :: ys, b, h, hb => by
    have hy : (∀ z ∈ ys, strLess y.Code z.Code = true) ∧ Ascending ys := by
      simpa [Ascending] using h
    rcases List.mem_cons.1 hb with rfl | hb
    · have hnil : ys.filter (fun x => decide (x.Code = b.Code)) = [] := by
        rw [List.filter_eq_nil_iff]
        intro z hz
        have := (strLess_iff_lt _ _).1 (hy.1 z hz)
        simpa using (ne_of_lt this).symm
      simp [List.filter_cons, hnil]
    · have hne : y.Code ≠ b.Code := ne_of_lt ((strLess_iff_lt _ _).1 (hy.1 b hb))
      simp [List.filter_cons, hne, filter_code_eq ys b hy.2 hb]

/-! ## The claims about the store -/

/-- C1, sort invariant: after any finite sequence of `Put` calls on a fresh
store, the stored sequence is strictly ascending by code, no two stored items
share a code, and a listing from the empty cursor with a count of at least
the number of stored items returns them all, strictly ascending and without
a repeated code. -/
theorem C1_sort_invariant (puts : List item) :
    ∃ s, storeAfter puts = .ok s ∧ Ascending s.items ∧ (s.items.map item.Code).Nodup ∧
      ∀ N : Int, (s.items.length : Int) ≤ N →
        ∃ page next, s.List "" N = .ok (page, next) ∧ page = s.items ∧
          Ascending page ∧ (page.map item.Code).Nodup := by
  obtain ⟨s, hs, hasc⟩ := storeAfter_spec puts
  refine ⟨s, hs, hasc, nodup_codes_of_ascending hasc, ?_⟩
  intro N hN
  exact ⟨s.items, "", List_whole hasc hN, rfl, hasc, nodup_codes_of_ascending hasc⟩

/-- C2, round trip: on every store reached by `Put` calls, `Put(it)` followed
by `Get(it.Code)` returns a present item equal to `it` (code, name and
price). -/
theorem C2_round_trip (puts : List item) (it : item) :
    ∃ s s', storeAfter puts = .ok s ∧ s.Put it = .ok s' ∧ s'.Get it.Code = .ok (some it) := by
  obtain ⟨s, hs, hasc⟩ := storeAfter_spec puts
  obtain ⟨s', hput, hasc', hmem⟩ := Put_spec hasc it
  exact ⟨s, s', hs, hput, Get_found hasc' hmem⟩

/-- C3 as stated fails: after `Put` of an item whose code is the empty string,
the first page of size 1 is that item and its next cursor is the empty
string, so the loop stops with one item out of five, whatever its budget. -/
theorem C3_counterexample :
    storeAfter [{ Code := "", Name := "Turnip", Price := 1 }]
        = .ok { items := { Code := "", Name := "Turnip", Price := 1 } :: staticData } ∧
      paginate { items := { Code := "", Name := "Turnip", Price := 1 } :: staticData } 1 1 ""
        = .ok [{ Code := "", Name := "Turnip", Price := 1 }] ∧
      ¬ ∃ fuel, paginate { items := { Code := "", Name := "Turnip", Price := 1 } :: staticData }
          1 fuel "" = .ok ({ Code := "", Name := "Turnip", Price := 1 } :: staticData) := by
  refine ⟨rfl, rfl, ?_⟩
  rintro ⟨fuel, hf⟩
  cases fuel with
  | zero => cases hf
  | succ n =>
    have h1 : paginate { items := { Code := "", Name := "Turnip", Price := 1 } :: staticData }
        1 (n + 1) "" = .ok [{ Code := "", Name := "Turnip", Price := 1 }] := rfl
    rw [h1] at hf
    injection hf with hf
    have := congrArg List.length hf
    simp [staticData] at this

/-- C4 as stated fails: with an item of empty code in the store, the listing
from the empty cursor returns that item, whose code is not above the
cursor. -/
theorem C4_counterexample :
    storeAfter [{ Code := "", Name := "Turnip", Price := 1 }]
        = .ok { items := { Code := "", Name := "Turnip", Price := 1 } :: staticData } ∧
      Store.List { items := { Code := "", Name := "Turnip", Price := 1 } :: staticData } "" 1
        = .ok ([{ Code := "", Name := "Turnip", Price := 1 }], "") ∧
      strLess "" (item.Code { Code := "", Name := "Turnip", Price := 1 }) = false :=
  ⟨rfl, rfl, rfl⟩

/-- C4 (amended), cursor exclusivity: on a store reached by `Put` calls, for
every count of at least 0 and every cursor that is non-empty (or any cursor
when no item put has an empty code), every item that `List` returns has a
code strictly above the cursor. -/
theorem C4_cursor_exclusive (puts : List item) (X : String) (count : Int) (hcount : 0 ≤ count)
    (hX : X ≠ "" ∨ ∀ it ∈ puts, it.Code ≠ "") :
    ∃ s page next, storeAfter puts = .ok s ∧ s.List X count = .ok (page, next) ∧
      ∀ x ∈ page, strLess X x.Code = true := by
  obtain ⟨s, hs, hasc, hne⟩ := storeAfter_forall (fun x => X = "" → x.Code ≠ "") puts
    (by intro x hx _; revert x; decide)
    (by
      intro x hx hXe
      rcases hX with h | h
      · exact absurd hXe h
      · exact h x hx)
  by_cases h0 : count = 0
  · exact ⟨s, [], X, hs, by simp [Store.List, h0], by simp⟩
  · have h1 : 1 ≤ count := by omega
    refine ⟨s, _, _, hs, List_spec hasc X h1, ?_⟩
    intro x hx
    have hx2 : x ∈ itemsAfter s.items X := List.mem_of_mem_take hx
    by_cases hXe : X = ""
    · subst hXe
      exact (strLess_empty_left _).2 (hne x (mem_of_mem_itemsAfter hx2) rfl)
    · simp only [itemsAfter, hXe, if_false, List.mem_filter] at hx2
      exact hx2.2

theorem C4_cursor_exclusive_witness :
    (0 : Int) ≤ 2 ∧ (("E5T6-9UI3-TH15-QR88" : String) ≠ "" ∨ ∀ it ∈ ([] : List item), it.Code ≠ "") ∧
      ∃ s page next, storeAfter [] = .ok s ∧ s.List "E5T6-9UI3-TH15-QR88" 2 = .ok (page, next) ∧
        ∀ x ∈ page, strLess "E5T6-9UI3-TH15-QR88" x.Code = true :=
  ⟨by decide, Or.inl (by decide),
    C4_cursor_exclusive [] "E5T6-9UI3-TH15-QR88" 2 (by decide) (Or.inl (by decide))⟩

/-- C5, page content: on a store reached by `Put` calls, for every cursor
(stored or not) and every count of at least 1, `List` returns exactly the
first `min(count, k)` items of the sequence of `k` items to deliver, which
is the whole stored sequence for the empty cursor and otherwise the stored
items with a code above the cursor; the page is strictly ascending by
code. -/
theorem C5_page_content (puts : List item) (cursor : String) (count : Int)
    (hcount : 1 ≤ count) :
    ∃ s page next, storeAfter puts = .ok s ∧ s.List cursor count = .ok (page, next) ∧
      page = (if cursor = "" then s.items
        else s.items.filter (fun x => strLess cursor x.Code)).take count.toNat ∧
      page.length = min count.toNat (if cursor = "" then s.items
        else s.items.filter (fun x => strLess cursor x.Code)).length ∧
      Ascending page := by
  obtain ⟨s, hs, hasc⟩ := storeAfter_spec puts
  refine ⟨s, _, _, hs, List_spec hasc cursor hcount, rfl, ?_, ?_⟩
  · rw [List.length_take]
    rfl
  · exact List.Pairwise.sublist (List.take_sublist _ _) (ascending_itemsAfter hasc cursor)

theorem C5_page_content_witness :
    (1 : Int) ≤ 2 ∧
      ∃ s page next, storeAfter [] = .ok s ∧
        s.List "B000-0000-0000-0000" 2 = .ok (page, next) ∧
        page = (if ("B000-0000-0000-0000" : String) = "" then s.items
          else s.items.filter (fun x => strLess "B000-0000-0000-0000" x.Code)).take
            (2 : Int).toNat ∧
        page.length = min (2 : Int).toNat (if ("B000-0000-0000-0000" : String) = "" then s.items
          else s.items.filter (fun x => strLess "B000-0000-0000-0000" x.Code)).length ∧
        Ascending page :=
  ⟨by decide, C5_page_content [] "B000-0000-0000-0000" 2 (by decide)⟩

/-- C6, next cursor: on a store reached by `Put` calls, for every cursor and
every count of at least 1, the items to deliver split into the returned page
and the rest beyond it; when the rest is not empty the next cursor is the
code of the last item of the page, and when nothing is left beyond the page
(the empty page included) the next cursor is the empty string. -/
theorem C6_next_cursor (puts : List item) (cursor : String) (count : Int)
    (hcount : 1 ≤ count) :
    ∃ s page next rest, storeAfter puts = .ok s ∧ s.List cursor count = .ok (page, next) ∧
      itemsAfter s.items cursor = page ++ rest ∧
      (rest ≠ [] → ∃ last, page.getLast? = some last ∧ next = last.Code) ∧
      (rest = [] → next = "") := by
  obtain ⟨s, hs, hasc⟩ := storeAfter_spec puts
  refine ⟨s, _, _, (itemsAfter s.items cursor).drop count.toNat, hs,
    List_spec hasc cursor hcount, (List.take_append_drop _ _).symm, ?_, ?_⟩
  · intro hrest
    have hlt : count.toNat < (itemsAfter s.items cursor).length := by
      by_contra hcon
      exact hrest (List.drop_of_length_le (by omega))
    have hidx : count.toNat - 1 < (itemsAfter s.items cursor).length := by omega
    have hn : count.toNat ≠ 0 := by omega
    refine ⟨(itemsAfter s.items cursor)[count.toNat - 1], ?_, ?_⟩
    · rw [List.getLast?_take, if_neg hn, List.getElem?_eq_getElem hidx]
      rfl
    · simp [nextCursorOf, hlt, List.getElem?_eq_getElem hidx]
  · intro hrest
    have hge : ¬ count.toNat < (itemsAfter s.items cursor).length := by
      intro hlt
      have := congrArg List.length hrest
      rw [List.length_drop] at this
      simp at this
      omega
    unfold nextCursorOf
    rw [if_neg hge]

theorem C6_next_cursor_witness :
    (1 : Int) ≤ 3 ∧
      ∃ s page next rest, storeAfter [] = .ok s ∧ s.List "" 3 = .ok (page, next) ∧
        itemsAfter s.items "" = page ++ rest ∧
        (rest ≠ [] → ∃ last, page.getLast? = some last ∧ next = last.Code) ∧
        (rest = [] → next = "") :=
  ⟨by decide, C6_next_cursor [] "" 3 (by decide)⟩

/-- C7, degenerate count: on every store and for every cursor, `List(cursor, 0)`
returns no item and the cursor itself as next cursor. -/
theorem C7_degenerate_count (s : Store) (cursor : String) :
    s.List cursor 0 = .ok ([], cursor) := by
  simp [Store.List]

/-- C8, boundary: on a store reached by `Put` calls, a listing from the empty
cursor with a count of at least the number of stored items returns all of
them in order with an empty next cursor; the fresh store holds the 4 seed
items, and `List("", 4)` and `List("", 5)` on it both return these 4 items
and an empty next cursor. -/
theorem C8_boundary (puts : List item) (s : Store) (count : Int)
    (hs : storeAfter puts = .ok s) (hcount : (s.items.length : Int) ≤ count) :
    s.List "" count = .ok (s.items, "") ∧
      NewStore.items = staticData ∧ staticData.length = 4 ∧
      NewStore.List "" 4 = .ok (staticData, "") ∧
      NewStore.List "" 5 = .ok (staticData, "") :=
  ⟨List_whole (ascending_of_storeAfter hs) hcount, rfl, rfl, rfl, rfl⟩

theorem C8_boundary_witness :
    storeAfter [] = .ok NewStore ∧ (NewStore.items.length : Int) ≤ 4 ∧
      (NewStore.List "" 4 = .ok (NewStore.items, "") ∧
        NewStore.items = staticData ∧ staticData.length = 4 ∧
        NewStore.List "" 4 = .ok (staticData, "") ∧
        NewStore.List "" 5 = .ok (staticData, "")) :=
  ⟨rfl, by decide, C8_boundary [] NewStore 4 rfl (by decide)⟩

/-- C9, upsert idempotence on identity: on a store reached by `Put` calls,
for two items `a` and `b` of the same code, after `Put(a)` and then `Put(b)`
the store holds exactly one item with that code, which is `b`, and as many
items as after `Put(a)` alone. -/
theorem C9_upsert_same_code (puts : List item) (a b : item) (hab : a.Code = b.Code) :
    ∃ s s1 s2, storeAfter puts = .ok s ∧ s.Put a = .ok s1 ∧ s1.Put b = .ok s2 ∧
      s2.items.filter (fun x => decide (x.Code = b.Code)) = [b] ∧
      s2.items.length = s1.items.length := by
  obtain ⟨s, hs, hasc⟩ := storeAfter_spec puts
  obtain ⟨s1, hput1, hasc1, hmem1⟩ := Put_spec hasc a
  obtain ⟨i, hi⟩ := List.mem_iff_getElem?.1 hmem1
  have hlen : i < s1.items.length := (List.getElem?_eq_some_iff.1 hi).1
  refine ⟨s, s1, _, hs, hput1, Put_found hasc1 hi hab, ?_, ?_⟩
  · apply filter_code_eq _ _ (ascending_set hasc1 hi hab)
    exact List.mem_iff_getElem?.2 ⟨i, by simp [List.getElem?_set, hlen]⟩
  · simp

theorem C9_upsert_same_code_witness :
    item.Code { Code := "A12T-4GH7-QPL9-3N4M", Name := "Lettuce", Price := 3 }
        = item.Code { Code := "A12T-4GH7-QPL9-3N4M", Name := "Romaine Lettuce", Price := 2 } ∧
      ∃ s s1 s2, storeAfter [] = .ok s ∧
        s.Put { Code := "A12T-4GH7-QPL9-3N4M", Name := "Lettuce", Price := 3 } = .ok s1 ∧
        s1.Put { Code := "A12T-4GH7-QPL9-3N4M", Name := "Romaine Lettuce", Price := 2 } = .ok s2 ∧
        s2.items.filter (fun x => decide (x.Code
          = item.Code { Code := "A12T-4GH7-QPL9-3N4M", Name := "Romaine Lettuce", Price := 2 }))
          = [{ Code := "A12T-4GH7-QPL9-3N4M", Name := "Romaine Lettuce", Price := 2 }] ∧
        s2.items.length = s1.items.length :=
  ⟨rfl, C9_upsert_same_code [] { Code := "A12T-4GH7-QPL9-3N4M", Name := "Lettuce", Price := 3 }
    { Code := "A12T-4GH7-QPL9-3N4M", Name := "Romaine Lettuce", Price := 2 } rfl⟩

/-- C10, in-place replacement: on a store reached by `Put` calls, for an item
`it` whose code is the code of the item stored at index `i`, `Put(it)`
leaves a sequence of the same length that holds `it` at index `i` and the
item it held before at every other index. -/
theorem C10_replace_in_place (puts : List item) (s : Store) (i : Nat) (old it : item)
    (hs : storeAfter puts = .ok s) (hold : s.items[i]? = some old)
    (hc : old.Code = it.Code) :
    ∃ s', s.Put it = .ok s' ∧ s'.items.length = s.items.length ∧ s'.items[i]? = some it ∧
      ∀ j : Nat, j ≠ i → s'.items[j]? = s.items[j]? := by
  have hasc := ascending_of_storeAfter hs
  have hlen : i < s.items.length := (List.getElem?_eq_some_iff.1 hold).1
  refine ⟨_, Put_found hasc hold hc, by simp, by simp [List.getElem?_set, hlen], ?_⟩
  intro j hj
  simp [List.getElem?_set, Ne.symm hj]

theorem C10_replace_in_place_witness :
    storeAfter [] = .ok NewStore ∧
      NewStore.items[1]? = some { Code := "E5T6-9UI3-TH15-QR88", Name := "Peach", Price := 2.99 } ∧
      item.Code { Code := "E5T6-9UI3-TH15-QR88", Name := "Peach", Price := 2.99 }
        = item.Code { Code := "E5T6-9UI3-TH15-QR88", Name := "White Peach", Price := 4 } ∧
      ∃ s', NewStore.Put { Code := "E5T6-9UI3-TH15-QR88", Name := "White Peach", Price := 4 }
          = .ok s' ∧
        s'.items.length = NewStore.items.length ∧
        s'.items[1]? = some { Code := "E5T6-9UI3-TH15-QR88", Name := "White Peach", Price := 4 } ∧
        ∀ j : Nat, j ≠ 1 → s'.items[j]? = NewStore.items[j]? :=
  ⟨rfl, rfl, rfl,
    C10_replace_in_place [] NewStore 1
      { Code := "E5T6-9UI3-TH15-QR88", Name := "Peach", Price := 2.99 }
      { Code := "E5T6-9UI3-TH15-QR88", Name := "White Peach", Price := 4 } rfl rfl rfl⟩


/-! ## Insertion, lookup and commutation -/

theorem insertSorted_split (x : item) :
    ∀ l : List item, ∃ pre post, l = pre ++ post ∧ insertSorted x l = pre ++ x :: post
  | [] => ⟨[], [], rfl, rfl⟩
  | y :: ys => by
    by_cases h : strLess x.Code y.Code = true
    · exact ⟨[], y :: ys, rfl, by simp [insertSorted, h]⟩
    · obtain ⟨pre, post, h1, h2⟩ := insertSorted_split x ys
      exact ⟨y :: pre, post, by simp [h1], by simp [insertSorted, h, h2]⟩

theorem filter_eq_left (p : item → Bool) {pre post : List item}
    (hpre : ∀ x ∈ pre, p x = true) (hpost : ∀ x ∈ post, p x = false) :
    (pre ++ post).filter p = pre := by
  rw [List.filter_append, List.filter_eq_self.2 hpre, List.filter_eq_nil_iff.2, List.append_nil]
  intro a ha
  simp [hpost a ha]

theorem ascending_insert_bounds {pre post : List item} {it : item}
    (h : Ascending (pre ++ it :: post)) :
    (∀ x ∈ pre, strLess x.Code it.Code = true) ∧ (∀ x ∈ post, strLess it.Code x.Code = true) := by
  unfold Ascending at h
  rw [List.pairwise_append] at h
  refine ⟨fun x hx => h.2.2 x hx it (List.mem_cons_self _ _), ?_⟩
  exact fun x hx => (List.pairwise_cons.1 h.2.1).1 x hx

theorem Get_absent {s : Store} (h : Ascending s.items) {code : String}
    (habs : ∀ x ∈ s.items, x.Code ≠ code) : s.Get code = .ok none := by
  obtain ⟨r, hr, _, _, _⟩ := search_ge_spec h code
  by_cases hlt : r < s.items.length
  · have hcur : s.items[r]? = some s.items[r] := List.getElem?_eq_getElem hlt
    have hne : (s.items[r]).Code ≠ code := habs _ (List.getElem_mem hlt)
    simp [Store.Get, hr, hlt, index_eq hcur, hne]
  · simp [Store.Get, hr, hlt]

theorem find_code_eq : ∀ (l : List item) (b : item), Ascending l → b ∈ l →
    l.find? (fun x => decide (x.Code = b.Code)) = some b
  | [], b, _, hb => by cases hb
  | y :: ys, b, h, hb => by
    have hy : (∀ z ∈ ys, strLess y.Code z.Code = true) ∧ Ascending ys := by
      simpa [Ascending] using h
    rcases List.mem_cons.1 hb with rfl | hb
    · simp [List.find?_cons]
    · have hne : y.Code ≠ b.Code := ne_of_lt ((strLess_iff_lt _ _).1 (hy.1 b hb))
      simp [List.find?_cons, hne, find_code_eq ys b hy.2 hb]

theorem Get_eq_find {s : Store} (h : Ascending s.items) (code : String) :
    s.Get code = .ok (s.items.find? (fun x => decide (x.Code = code))) := by
  by_cases hex : ∃ x ∈ s.items, x.Code = code
  · obtain ⟨x, hx, rfl⟩ := hex
    rw [Get_found h hx, find_code_eq _ _ h hx]
  · have habs : ∀ x ∈ s.items, x.Code ≠ code := fun x hx hc => hex ⟨x, hx, hc⟩
    have hnone : s.items.find? (fun x => decide (x.Code = code)) = none := by
      rw [List.find?_eq_none]
      intro x hx
      simpa using habs x hx
    rw [Get_absent h habs, hnone]

theorem mem_Put_iff {s s' : Store} (h : Ascending s.items) {it : item}
    (hput : s.Put it = .ok s') (x : item) :
    x ∈ s'.items ↔ x = it ∨ (x ∈ s.items ∧ x.Code ≠ it.Code) := by
  rcases exists_code_or_fresh s.items it.Code with ⟨i, old, hold, hc⟩ | hfresh
  · rw [Put_found h hold hc] at hput
    cases hput
    have hlen : i < s.items.length := (List.getElem?_eq_some_iff.1 hold).1
    constructor
    · intro hx
      obtain ⟨j, hj⟩ := List.mem_iff_getElem?.1 hx
      by_cases hij : i = j
      · left
        subst hij
        rw [List.getElem?_set_self hlen] at hj
        exact (Option.some.inj hj).symm
      · right
        rw [List.getElem?_set_ne hij] at hj
        refine ⟨List.mem_iff_getElem?.2 ⟨j, hj⟩, ?_⟩
        intro hxc
        exact hij (h.index_unique hold hj (hc.trans hxc.symm))
    · rintro (rfl | ⟨hx, hne⟩)
      · exact List.mem_iff_getElem?.2 ⟨i, by simp [List.getElem?_set, hlen]⟩
      · obtain ⟨j, hj⟩ := List.mem_iff_getElem?.1 hx
        have hji : i ≠ j := by
          rintro rfl
          rw [hold] at hj
          cases hj
          exact hne hc
        exact List.mem_iff_getElem?.2 ⟨j, by simp [List.getElem?_set, hji, hj]⟩
  · rw [Put_fresh h hfresh] at hput
    cases hput
    rw [mem_insertSorted]
    constructor
    · rintro (h1 | h1)
      · exact Or.inl h1
      · exact Or.inr ⟨h1, hfresh x h1⟩
    · rintro (h1 | h1)
      · exact Or.inl h1
      · exact Or.inr h1.1

theorem ascending_ext {l1 l2 : List item} (h1 : Ascending l1) (h2 : Ascending l2)
    (hmem : ∀ x, x ∈ l1 ↔ x ∈ l2) : l1 = l2 := by
  rw [ascending_iff] at h1 h2
  haveI : IsAntisymm item (fun a b => a.Code < b.Code) :=
    ⟨fun a b hab hba => absurd (lt_trans hab hba) (lt_irrefl _)⟩
  have n1 : l1.Nodup := h1.imp (fun hab heq => by rw [heq] at hab; exact lt_irrefl _ hab)
  have n2 : l2.Nodup := h2.imp (fun hab heq => by rw [heq] at hab; exact lt_irrefl _ hab)
  exact List.eq_of_perm_of_sorted ((List.perm_ext_iff_of_nodup n1 n2).2 hmem) h1 h2

/-- C11, insertion of a novel code: on a store reached by `Put` calls, for an
item whose code is not stored, `Put` (append, then sort) leaves the former
sequence with the item inserted between the items of smaller code and the
items of greater code; this is the only position that keeps the codes
ascending, the length grows by one and the former items remain, unchanged and
in the same order. -/
theorem C11_insert_novel (puts : List item) (s : Store) (it : item)
    (hs : storeAfter puts = .ok s) (hfresh : ∀ x ∈ s.items, x.Code ≠ it.Code) :
    ∃ s' pre post, s.Put it = .ok s' ∧ s.items = pre ++ post ∧ s'.items = pre ++ it :: post ∧
      (∀ x ∈ pre, strLess x.Code it.Code = true) ∧
      (∀ x ∈ post, strLess it.Code x.Code = true) ∧
      Ascending s'.items ∧ s'.items.length = s.items.length + 1 ∧
      List.Sublist s.items s'.items ∧
      ∀ pre2 post2 : List item, s.items = pre2 ++ post2 → Ascending (pre2 ++ it :: post2) →
        pre2 = pre ∧ post2 = post := by
  have hasc := ascending_of_storeAfter hs
  obtain ⟨pre, post, hsplit, hins⟩ := insertSorted_split it s.items
  have hasc' : Ascending (pre ++ it :: post) := by
    rw [← hins]
    exact insertSorted_ascending _ _ hasc hfresh
  have hb := ascending_insert_bounds hasc'
  have hnot : ∀ {q : List item}, (∀ x ∈ q, strLess it.Code x.Code = true) →
      ∀ x ∈ q, (fun y : item => strLess y.Code it.Code) x = false := by
    intro q hq x hx
    rw [strLess_eq_false_iff]
    exact le_of_lt ((strLess_iff_lt _ _).1 (hq x hx))
  refine ⟨{ items := pre ++ it :: post }, pre, post, ?_, hsplit, rfl, hb.1, hb.2, hasc', ?_, ?_, ?_⟩
  · rw [Put_fresh hasc hfresh, hins]
  · simp [hsplit]
    omega
  · rw [hsplit]
    exact List.Sublist.append_left (List.sublist_cons_self _ _) _
  · intro pre2 post2 hsplit2 hasc2
    have hb2 := ascending_insert_bounds hasc2
    have e1 : s.items.filter (fun y : item => strLess y.Code it.Code) = pre := by
      rw [hsplit]
      exact filter_eq_left _ hb.1 (hnot hb.2)
    have e2 : s.items.filter (fun y : item => strLess y.Code it.Code) = pre2 := by
      rw [hsplit2]
      exact filter_eq_left _ hb2.1 (hnot hb2.2)
    have hpre : pre2 = pre := e2.symm.trans e1
    refine ⟨hpre, ?_⟩
    subst hpre
    exact List.append_cancel_left (hsplit2.symm.trans hsplit)

theorem C11_insert_novel_witness :
    storeAfter [] = .ok NewStore ∧
      (∀ x ∈ NewStore.items,
        x.Code ≠ item.Code { Code := "MMMM-MMMM-MMMM-MMMM", Name := "Mango", Price := 2 }) ∧
      ∃ s' pre post,
        NewStore.Put { Code := "MMMM-MMMM-MMMM-MMMM", Name := "Mango", Price := 2 } = .ok s' ∧
        NewStore.items = pre ++ post ∧
        s'.items = pre ++ { Code := "MMMM-MMMM-MMMM-MMMM", Name := "Mango", Price := 2 } :: post ∧
        (∀ x ∈ pre, strLess x.Code
          (item.Code { Code := "MMMM-MMMM-MMMM-MMMM", Name := "Mango", Price := 2 }) = true) ∧
        (∀ x ∈ post, strLess
          (item.Code { Code := "MMMM-MMMM-MMMM-MMMM", Name := "Mango", Price := 2 }) x.Code = true) ∧
        Ascending s'.items ∧ s'.items.length = NewStore.items.length + 1 ∧
        List.Sublist NewStore.items s'.items ∧
        ∀ pre2 post2 : List item, NewStore.items = pre2 ++ post2 →
          Ascending (pre2 ++ { Code := "MMMM-MMMM-MMMM-MMMM", Name := "Mango", Price := 2 } :: post2) →
          pre2 = pre ∧ post2 = post :=
  ⟨rfl, by decide,
    C11_insert_novel [] NewStore { Code := "MMMM-MMMM-MMMM-MMMM", Name := "Mango", Price := 2 }
      rfl (by decide)⟩

/-- C12, Get correctness: on a store reached by `Put` calls, for every string
(a well-formed code or not) `Get` completes and returns what a linear search
of the sequence for that exact code returns: the stored item with that code
when there is one, and absence otherwise. -/
theorem C12_get_correct (puts : List item) (code : String) :
    ∃ s, storeAfter puts = .ok s ∧
      s.Get code = .ok (s.items.find? (fun x => decide (x.Code = code))) ∧
      (∀ x : item, s.Get code = .ok (some x) ↔ (x ∈ s.items ∧ x.Code = code)) ∧
      (s.Get code = .ok none ↔ ∀ x ∈ s.items, x.Code ≠ code) := by
  obtain ⟨s, hs, hasc⟩ := storeAfter_spec puts
  refine ⟨s, hs, Get_eq_find hasc code, ?_, ?_⟩
  · intro x
    constructor
    · intro hget
      by_cases hex : ∃ y ∈ s.items, y.Code = code
      · obtain ⟨y, hy, rfl⟩ := hex
        rw [Get_found hasc hy] at hget
        cases hget
        exact ⟨hy, rfl⟩
      · rw [Get_absent hasc (fun y hy hc => hex ⟨y, hy, hc⟩)] at hget
        cases hget
    · rintro ⟨hx, rfl⟩
      exact Get_found hasc hx
  · constructor
    · intro hget y hy hc
      subst hc
      rw [Get_found hasc hy] at hget
      cases hget
    · exact Get_absent hasc

/-- C20, puts on different codes commute: on a store reached by `Put` calls,
for two items of different codes, `Put(a)` then `Put(b)` and `Put(b)` then
`Put(a)` leave the same sequence, which holds `a`, `b` and the former items
of the other codes. -/
theorem C20_puts_commute (puts : List item) (a b : item) (hab : a.Code ≠ b.Code) :
    ∃ s sa sab sb sba, storeAfter puts = .ok s ∧ s.Put a = .ok sa ∧ sa.Put b = .ok sab ∧
      s.Put b = .ok sb ∧ sb.Put a = .ok sba ∧ sab.items = sba.items ∧
      ∀ x : item, x ∈ sab.items ↔
        (x = a ∨ x = b ∨ (x ∈ s.items ∧ x.Code ≠ a.Code ∧ x.Code ≠ b.Code)) := by
  obtain ⟨s, hs, hasc⟩ := storeAfter_spec puts
  obtain ⟨sa, hsa, hasca, _⟩ := Put_spec hasc a
  obtain ⟨sab, hsab, hascab, _⟩ := Put_spec hasca b
  obtain ⟨sb, hsb, hascb, _⟩ := Put_spec hasc b
  obtain ⟨sba, hsba, hascba, _⟩ := Put_spec hascb a
  have m1 : ∀ x : item, x ∈ sab.items ↔
      (x = a ∨ x = b ∨ (x ∈ s.items ∧ x.Code ≠ a.Code ∧ x.Code ≠ b.Code)) := by
    intro x
    rw [mem_Put_iff hasca hsab, mem_Put_iff hasc hsa]
    constructor
    · rintro (h | ⟨h | ⟨h1, h2⟩, h3⟩)
      · exact Or.inr (Or.inl h)
      · exact Or.inl h
      · exact Or.inr (Or.inr ⟨h1, h2, h3⟩)
    · rintro (h | h | ⟨h1, h2, h3⟩)
      · exact Or.inr ⟨Or.inl h, by rw [h]; exact hab⟩
      · exact Or.inl h
      · exact Or.inr ⟨Or.inr ⟨h1, h2⟩, h3⟩
  have m2 : ∀ x : item, x ∈ sba.items ↔
      (x = a ∨ x = b ∨ (x ∈ s.items ∧ x.Code ≠ a.Code ∧ x.Code ≠ b.Code)) := by
    intro x
    rw [mem_Put_iff hascb hsba, mem_Put_iff hasc hsb]
    constructor
    · rintro (h | ⟨h | ⟨h1, h2⟩, h3⟩)
      · exact Or.inl h
      · exact Or.inr (Or.inl h)
      · exact Or.inr (Or.inr ⟨h1, h3, h2⟩)
    · rintro (h | h | ⟨h1, h2, h3⟩)
      · exact Or.inl h
      · exact Or.inr ⟨Or.inl h, by rw [h]; exact Ne.symm hab⟩
      · exact Or.inr ⟨Or.inr ⟨h1, h3⟩, h2⟩
  refine ⟨s, sa, sab, sb, sba, hs, hsa, hsab, hsb, hsba, ?_, m1⟩
  exact ascending_ext hascab hascba (fun x => (m1 x).trans (m2 x).symm)

theorem C20_puts_commute_witness :
    item.Code { Code := "MMMM-MMMM-MMMM-MMMM", Name := "Mango", Price := 2 }
        ≠ item.Code { Code := "A12T-4GH7-QPL9-3N4M", Name := "Romaine Lettuce", Price := 3 } ∧
      ∃ s sa sab sb sba, storeAfter [] = .ok s ∧
        s.Put { Code := "MMMM-MMMM-MMMM-MMMM", Name := "Mango", Price := 2 } = .ok sa ∧
        sa.Put { Code := "A12T-4GH7-QPL9-3N4M", Name := "Romaine Lettuce", Price := 3 } = .ok sab ∧
        s.Put { Code := "A12T-4GH7-QPL9-3N4M", Name := "Romaine Lettuce", Price := 3 } = .ok sb ∧
        sb.Put { Code := "MMMM-MMMM-MMMM-MMMM", Name := "Mango", Price := 2 } = .ok sba ∧
        sab.items = sba.items ∧
        ∀ x : item, x ∈ sab.items ↔
          (x = { Code := "MMMM-MMMM-MMMM-MMMM", Name := "Mango", Price := 2 } ∨
            x = { Code := "A12T-4GH7-QPL9-3N4M", Name := "Romaine Lettuce", Price := 3 } ∨
            (x ∈ s.items ∧
              x.Code ≠ item.Code { Code := "MMMM-MMMM-MMMM-MMMM", Name := "Mango", Price := 2 } ∧
              x.Code ≠ item.Code
                { Code := "A12T-4GH7-QPL9-3N4M", Name := "Romaine Lettuce", Price := 3 })) :=
  ⟨by decide,
    C20_puts_commute [] { Code := "MMMM-MMMM-MMMM-MMMM", Name := "Mango", Price := 2 }
      { Code := "A12T-4GH7-QPL9-3N4M", Name := "Romaine Lettuce", Price := 3 } (by decide)⟩


/-! ## The pattern of the codes -/

theorem matchPieces_zero (r : List (Nat × Nat)) (ps : List Piece) (cs : List Char) :
    matchPieces ({ ranges := r, times := 0 } :: ps) cs = matchPieces ps cs := by
  simp [matchPieces, matchTimes]

theorem matchPieces_succ_nil (r : List (Nat × Nat)) (n : Nat) (ps : List Piece) :
    matchPieces ({ ranges := r, times := n + 1 } :: ps) [] = false := by
  simp [matchPieces, matchTimes]

theorem matchPieces_succ_cons (r : List (Nat × Nat)) (n : Nat) (ps : List Piece) (c : Char)
    (cs : List Char) :
    matchPieces ({ ranges := r, times := n + 1 } :: ps) (c :: cs)
      = (inClass r c && matchPieces ({ ranges := r, times := n } :: ps) cs) := by
  cases h : inClass r c <;> simp [matchPieces, matchTimes, h]

theorem inClass_upperDigit (c : Char) :
    inClass classUpperDigit c = (c.isUpper || c.isDigit) := by
  have h1 : c.val ≥ 65 ↔ 65 ≤ c.toNat := Iff.rfl
  have h2 : c.val ≤ 90 ↔ c.toNat ≤ 90 := Iff.rfl
  have h3 : c.val ≥ 48 ↔ 48 ≤ c.toNat := Iff.rfl
  have h4 : c.val ≤ 57 ↔ c.toNat ≤ 57 := Iff.rfl
  simp only [inClass, classUpperDigit, List.any_cons, List.any_nil, Bool.or_false, Char.isUpper,
    Char.isDigit]
  rw [Bool.eq_iff_iff]
  simp only [Bool.or_eq_true, Bool.and_eq_true, decide_eq_true_eq, h1, h2, h3, h4]
  rfl

theorem inClass_hyphen (c : Char) : inClass classHyphen c = decide (c = '-') := by
  rw [Bool.eq_iff_iff]
  simp only [inClass, classHyphen, List.any_cons, List.any_nil, Bool.or_false, Bool.and_eq_true,
    decide_eq_true_eq]
  constructor
  · intro h
    have h45 : c.toNat = 45 := by
      have e : '-'.toNat = 45 := rfl
      rw [e] at h
      omega
    apply Char.ext
    apply UInt32.ext
    exact h45
  · rintro rfl
    exact ⟨Nat.le_refl _, Nat.le_refl _⟩


theorem matchPieces_nil (cs : List Char) : matchPieces [] cs = cs.isEmpty := rfl

theorem enum_all_19 (P : Nat × Char → Prop)
    (c0 c1 c2 c3 c4 c5 c6 c7 c8 c9 c10 c11 c12 c13 c14 c15 c16 c17 c18 : Char) :
    (∀ p ∈ [c0, c1, c2, c3, c4, c5, c6, c7, c8, c9, c10, c11, c12, c13, c14, c15, c16, c17,
        c18].enum, P p) ↔
      (P (0, c0) ∧ P (1, c1) ∧ P (2, c2) ∧ P (3, c3) ∧ P (4, c4) ∧ P (5, c5) ∧ P (6, c6) ∧
        P (7, c7) ∧ P (8, c8) ∧ P (9, c9) ∧ P (10, c10) ∧ P (11, c11) ∧ P (12, c12) ∧
        P (13, c13) ∧ P (14, c14) ∧ P (15, c15) ∧ P (16, c16) ∧ P (17, c17) ∧ P (18, c18)) := by
  simp [List.enum, List.enumFrom]

theorem matchString_iff_canonical (s : String) :
    MatchString codeRegex s = true ↔ canonicalCode s := by
  obtain ⟨l⟩ := s
  unfold MatchString canonicalCode codeRegex
  simp only []
  rcases l with _ | ⟨c0, _ | ⟨c1, _ | ⟨c2, _ | ⟨c3, _ | ⟨c4, _ | ⟨c5, _ | ⟨c6, _ | ⟨c7, _ | ⟨c8,
    _ | ⟨c9, _ | ⟨c10, _ | ⟨c11, _ | ⟨c12, _ | ⟨c13, _ | ⟨c14, _ | ⟨c15, _ | ⟨c16, _ | ⟨c17,
    _ | ⟨c18, _ | ⟨c19, l⟩⟩⟩⟩⟩⟩⟩⟩⟩⟩⟩⟩⟩⟩⟩⟩⟩⟩⟩⟩
  case cons.cons.cons.cons.cons.cons.cons.cons.cons.cons.cons.cons.cons.cons.cons.cons.cons.cons.cons.nil =>
    rw [enum_all_19]
    simp only [matchPieces_succ_cons, matchPieces_zero, matchPieces_nil, inClass_upperDigit,
      inClass_hyphen, List.isEmpty_nil, List.length_cons, List.length_nil]
    simp
  all_goals simp [matchPieces_succ_cons, matchPieces_zero, matchPieces_succ_nil, matchPieces_nil]

/-- C13, code format: the pattern of `codeRegex` accepts a string exactly when
it has 19 characters, hyphens at the positions 4, 9 and 14 and an upper-case
letter `A`-`Z` or a digit at every other position; the two sample codes are
accepted and the four malformed ones are rejected. -/
theorem C13_code_format (s : String) :
    (MatchString codeRegex s = true ↔ canonicalCode s) ∧
      MatchString codeRegex "AAAA-AAAA-AAAA-AAAA" = true ∧
      MatchString codeRegex "1111-1111-1111-1111" = true ∧
      MatchString codeRegex "" = false ∧
      MatchString codeRegex "AAAA-AAAA-AAAA-AAA" = false ∧
      MatchString codeRegex "AAAAAAAAAAAAAAAA" = false ∧
      MatchString codeRegex "$AAA-AAAA-AAAA-AAAA" = false :=
  ⟨matchString_iff_canonical s, by decide, by decide, by decide, by decide, by decide, by decide⟩

/-! ## The create/update handler -/

theorem toUpper_eq_empty (upper : Char → Char) (s : String) :
    ToUpper upper s = "" ↔ s = "" := by
  obtain ⟨l⟩ := s
  cases l with
  | nil => simp [ToUpper]
  | cons c cs =>
    constructor
    · intro h
      exact absurd (congrArg String.data h) (by simp [ToUpper])
    · intro h
      exact absurd (congrArg String.data h) (by simp)

theorem HandleItemPut_parsed (svc : Service) (upper : Char → Char) (it : item) (u : String) :
    svc.HandleItemPut upper (.ok it) u =
      if u ≠ "" ∧ u ≠ requestCode upper it.Code u then
        .ok (svc, errorResponse StatusBadRequest "code in url and body did not match")
      else if requestCode upper it.Code u = "" then
        .ok (svc, errorResponse StatusUnprocessableEntity "missing code")
      else if MatchString codeRegex (requestCode upper it.Code u) = false then
        .ok (svc, errorResponse StatusUnprocessableEntity "bad code format")
      else if it.Name = "" then
        .ok (svc, errorResponse StatusUnprocessableEntity "missing name")
      else if it.Price = 0 then
        .ok (svc, errorResponse StatusUnprocessableEntity "missing price")
      else if it.Price < 0 then
        .ok (svc, errorResponse StatusUnprocessableEntity "negative price")
      else if it.Price > 9999 then
        .ok (svc, errorResponse StatusUnprocessableEntity "price must be <= $10000")
      else
        match svc.store.Put
            { Code := requestCode upper it.Code u, Name := it.Name, Price := it.Price } with
        | .error e => .error e
        | .ok st =>
          match Service.HandleItemGet { store := st } (requestCode upper it.Code u) with
          | .error e => .error e
          | .ok rsp => .ok ({ store := st }, rsp) := by
  unfold Service.HandleItemPut requestCode
  by_cases h : ToUpper upper it.Code = "" <;> simp [h]

theorem HandleItemPut_accept (svc : Service) (hasc : Ascending svc.store.items)
    (upper : Char → Char) (it : item) (u : String)
    (hconf : ¬ (u ≠ "" ∧ u ≠ requestCode upper it.Code u))
    (hcode : requestCode upper it.Code u ≠ "")
    (hmatch : MatchString codeRegex (requestCode upper it.Code u) = true)
    (hname : it.Name ≠ "") (hpos : 0 < it.Price) (hmax : it.Price ≤ 9999) :
    ∃ st, svc.store.Put
          { Code := requestCode upper it.Code u, Name := it.Name, Price := it.Price } = .ok st ∧
        Ascending st.items ∧
        svc.HandleItemPut upper (.ok it) u = .ok ({ store := st },
          { status := StatusOK, link := none,
            body := .one { toItem := { Code := requestCode upper it.Code u, Name := it.Name,
                                       Price := it.Price },
                           Url := "/items/" ++ requestCode upper it.Code u } }) := by
  obtain ⟨st, hput, hasc', hmem⟩ := Put_spec hasc
    { Code := requestCode upper it.Code u, Name := it.Name, Price := it.Price }
  have hget := Get_found hasc' hmem
  have h0 : it.Price ≠ 0 := ne_of_gt hpos
  have h1 : ¬ it.Price < 0 := not_lt.2 (le_of_lt hpos)
  have h2 : ¬ it.Price > 9999 := not_lt.2 hmax
  refine ⟨st, hput, hasc', ?_⟩
  rw [HandleItemPut_parsed, if_neg hconf, if_neg hcode, if_neg (by simp [hmatch]), if_neg hname,
    if_neg h0, if_neg h1, if_neg h2, hput]
  simp only [Service.HandleItemGet]
  simp only [] at hget
  rw [hget]



theorem matchString_ne_empty {c : String} (h : MatchString codeRegex c = true) : c ≠ "" := by
  rintro rfl
  exact absurd h (by decide)

/-- C14, validation order of a create/update request whose payload parses:
with `c` the upper-cased code of the payload, or the code `u` of the URL when
the payload has no code, the answer is the error of the first check that
fails, in the order: `u` given and different from `c` (bad request), `c`
empty, `c` off the pattern, name empty, price zero, price negative, price
above 9999 (all unprocessable); a failed request leaves the store as it was,
and when every check passes the item with code `c` is put into the store and
the answer has status 200 and carries that item. -/
theorem C14_validation_order (upper : Char → Char) (puts : List item) (s : Store) (u : String)
    (it : item) (hs : storeAfter puts = .ok s) :
    (requestCode upper it.Code u = if it.Code = "" then u else ToUpper upper it.Code) ∧
    ((u ≠ "" ∧ u ≠ requestCode upper it.Code u) →
      Service.HandleItemPut { store := s } upper (.ok it) u = .ok ({ store := s },
        errorResponse StatusBadRequest "code in url and body did not match")) ∧
    (¬ (u ≠ "" ∧ u ≠ requestCode upper it.Code u) → requestCode upper it.Code u = "" →
      Service.HandleItemPut { store := s } upper (.ok it) u = .ok ({ store := s },
        errorResponse StatusUnprocessableEntity "missing code")) ∧
    (¬ (u ≠ "" ∧ u ≠ requestCode upper it.Code u) → requestCode upper it.Code u ≠ "" →
      MatchString codeRegex (requestCode upper it.Code u) = false →
      Service.HandleItemPut { store := s } upper (.ok it) u = .ok ({ store := s },
        errorResponse StatusUnprocessableEntity "bad code format")) ∧
    (¬ (u ≠ "" ∧ u ≠ requestCode upper it.Code u) →
      MatchString codeRegex (requestCode upper it.Code u) = true → it.Name = "" →
      Service.HandleItemPut { store := s } upper (.ok it) u = .ok ({ store := s },
        errorResponse StatusUnprocessableEntity "missing name")) ∧
    (¬ (u ≠ "" ∧ u ≠ requestCode upper it.Code u) →
      MatchString codeRegex (requestCode upper it.Code u) = true → it.Name ≠ "" →
      it.Price = 0 →
      Service.HandleItemPut { store := s } upper (.ok it) u = .ok ({ store := s },
        errorResponse StatusUnprocessableEntity "missing price")) ∧
    (¬ (u ≠ "" ∧ u ≠ requestCode upper it.Code u) →
      MatchString codeRegex (requestCode upper it.Code u) = true → it.Name ≠ "" →
      it.Price < 0 →
      Service.HandleItemPut { store := s } upper (.ok it) u = .ok ({ store := s },
        errorResponse StatusUnprocessableEntity "negative price")) ∧
    (¬ (u ≠ "" ∧ u ≠ requestCode upper it.Code u) →
      MatchString codeRegex (requestCode upper it.Code u) = true → it.Name ≠ "" →
      9999 < it.Price →
      Service.HandleItemPut { store := s } upper (.ok it) u = .ok ({ store := s },
        errorResponse StatusUnprocessableEntity "price must be <= $10000")) ∧
    (¬ (u ≠ "" ∧ u ≠ requestCode upper it.Code u) →
      MatchString codeRegex (requestCode upper it.Code u) = true → it.Name ≠ "" →
      0 < it.Price → it.Price ≤ 9999 →
      ∃ s', s.Put { Code := requestCode upper it.Code u, Name := it.Name, Price := it.Price }
            = .ok s' ∧
        Service.HandleItemPut { store := s } upper (.ok it) u = .ok ({ store := s' },
          { status := StatusOK, link := none,
            body := .one { toItem := { Code := requestCode upper it.Code u, Name := it.Name,
                                       Price := it.Price },
                           Url := "/items/" ++ requestCode upper it.Code u } })) := by
  have hasc := ascending_of_storeAfter hs
  refine ⟨?_, ?_, ?_, ?_, ?_, ?_, ?_, ?_, ?_⟩
  · unfold requestCode
    by_cases h : it.Code = ""
    · rw [if_pos ((toUpper_eq_empty upper _).2 h), if_pos h]
    · rw [if_neg (fun h2 => h ((toUpper_eq_empty upper _).1 h2)), if_neg h]
  · intro h1
    rw [HandleItemPut_parsed, if_pos h1]
  · intro h1 h2
    rw [HandleItemPut_parsed, if_neg h1, if_pos h2]
  · intro h1 h2 h3
    rw [HandleItemPut_parsed, if_neg h1, if_neg h2, if_pos h3]
  · intro h1 h3 h4
    rw [HandleItemPut_parsed, if_neg h1, if_neg (matchString_ne_empty h3),
      if_neg (by simp [h3]), if_pos h4]
  · intro h1 h3 h4 h5
    rw [HandleItemPut_parsed, if_neg h1, if_neg (matchString_ne_empty h3),
      if_neg (by simp [h3]), if_neg h4, if_pos h5]
  · intro h1 h3 h4 h5
    rw [HandleItemPut_parsed, if_neg h1, if_neg (matchString_ne_empty h3),
      if_neg (by simp [h3]), if_neg h4, if_neg (ne_of_lt h5), if_pos h5]
  · intro h1 h3 h4 h5
    have h6 : (0 : ℚ) < it.Price := lt_trans (by norm_num) h5
    rw [HandleItemPut_parsed, if_neg h1, if_neg (matchString_ne_empty h3),
      if_neg (by simp [h3]), if_neg h4, if_neg (ne_of_gt h6), if_neg (not_lt.2 (le_of_lt h6)),
      if_pos h5]
  · intro h1 h3 h4 h5 h6
    obtain ⟨st, hput, _, hout⟩ := HandleItemPut_accept { store := s } hasc upper it u h1
      (matchString_ne_empty h3) h3 h4 h5 h6
    exact ⟨st, hput, hout⟩

theorem C14_validation_order_witness :
    storeAfter [] = .ok NewStore ∧
      Service.HandleItemPut { store := NewStore } Char.toUpper
          (.ok { Code := "", Name := "Mango", Price := 0 }) "mmmm"
        = .ok ({ store := NewStore }, errorResponse StatusUnprocessableEntity "bad code format") :=
  ⟨rfl, (C14_validation_order Char.toUpper [] NewStore "mmmm"
    { Code := "", Name := "Mango", Price := 0 } rfl).2.2.2.1 (by decide) (by decide) (by decide)⟩


theorem errorResponse_status_ne_ok_bad (msg : String) :
    (errorResponse StatusBadRequest msg).status ≠ StatusOK := by
  simp [errorResponse, StatusBadRequest, StatusOK]

theorem errorResponse_status_ne_ok_unprocessable (msg : String) :
    (errorResponse StatusUnprocessableEntity msg).status ≠ StatusOK := by
  simp [errorResponse, StatusUnprocessableEntity, StatusOK]

/-- One create/update request on a service whose items are ascending: the
handler completes and the items stay ascending; the response is either 200,
or a bad request or an unprocessable one, and then the service is left as it
was; an item that the request brings in satisfies the constraints of the data
model. -/
theorem HandleItemPut_spec (svc : Service) (hasc : Ascending svc.store.items)
    (upper : Char → Char) (body : Except String item) (u : String) :
    ∃ svc' rsp, svc.HandleItemPut upper body u = .ok (svc', rsp) ∧
      Ascending svc'.store.items ∧
      (rsp.status = StatusOK ∨ (svc' = svc ∧
        (rsp.status = StatusBadRequest ∨ rsp.status = StatusUnprocessableEntity))) ∧
      (∀ x ∈ svc'.store.items, x ∈ svc.store.items ∨ validItem x) := by
  cases body with
  | error err =>
    exact ⟨svc, _, rfl, hasc, Or.inr ⟨rfl, Or.inl rfl⟩, fun x hx => Or.inl hx⟩
  | ok it =>
    by_cases h1 : u ≠ "" ∧ u ≠ requestCode upper it.Code u
    · exact ⟨svc, _, by rw [HandleItemPut_parsed, if_pos h1], hasc, Or.inr ⟨rfl, Or.inl rfl⟩,
        fun x hx => Or.inl hx⟩
    by_cases h2 : requestCode upper it.Code u = ""
    · exact ⟨svc, _, by rw [HandleItemPut_parsed, if_neg h1, if_pos h2], hasc,
        Or.inr ⟨rfl, Or.inr rfl⟩, fun x hx => Or.inl hx⟩
    by_cases h3 : MatchString codeRegex (requestCode upper it.Code u) = false
    · exact ⟨svc, _, by rw [HandleItemPut_parsed, if_neg h1, if_neg h2, if_pos h3], hasc,
        Or.inr ⟨rfl, Or.inr rfl⟩, fun x hx => Or.inl hx⟩
    by_cases h4 : it.Name = ""
    · exact ⟨svc, _, by rw [HandleItemPut_parsed, if_neg h1, if_neg h2, if_neg h3, if_pos h4],
        hasc, Or.inr ⟨rfl, Or.inr rfl⟩, fun x hx => Or.inl hx⟩
    by_cases h5 : it.Price = 0
    · exact ⟨svc, _, by
        rw [HandleItemPut_parsed, if_neg h1, if_neg h2, if_neg h3, if_neg h4, if_pos h5],
        hasc, Or.inr ⟨rfl, Or.inr rfl⟩, fun x hx => Or.inl hx⟩
    by_cases h6 : it.Price < 0
    · exact ⟨svc, _, by
        rw [HandleItemPut_parsed, if_neg h1, if_neg h2, if_neg h3, if_neg h4, if_neg h5,
          if_pos h6],
        hasc, Or.inr ⟨rfl, Or.inr rfl⟩, fun x hx => Or.inl hx⟩
    by_cases h7 : it.Price > 9999
    · exact ⟨svc, _, by
        rw [HandleItemPut_parsed, if_neg h1, if_neg h2, if_neg h3, if_neg h4, if_neg h5,
          if_neg h6, if_pos h7],
        hasc, Or.inr ⟨rfl, Or.inr rfl⟩, fun x hx => Or.inl hx⟩
    have hmatch : MatchString codeRegex (requestCode upper it.Code u) = true := by
      simpa using h3
    have hpos : 0 < it.Price := lt_of_le_of_ne (not_lt.1 h6) (Ne.symm h5)
    have hmax : it.Price ≤ 9999 := not_lt.1 h7
    obtain ⟨st, hput, hasc', hout⟩ := HandleItemPut_accept svc hasc upper it u h1 h2 hmatch h4 hpos hmax
    refine ⟨{ store := st }, _, hout, hasc', Or.inl rfl, ?_⟩
    intro x hx
    rcases Put_mem hasc hput x hx with rfl | hx
    · exact Or.inr ⟨hmatch, h4, hpos, hmax⟩
    · exact Or.inl hx

/-- C15, price boundary: for a create/update request whose code and name pass
the validation, the answer has status 200 exactly when the price is above 0
and at most 9999; a price of 0 is answered by the missing-price error, a
price below 0 by the negative-price error and a price above 9999 by the
out-of-range error, each with the unprocessable status and the store left as
it was; the prices 0, -2 and 10000 are rejected and 4.99 is accepted. -/
theorem C15_price_boundary (upper : Char → Char) (puts : List item) (s : Store)
    (u code name : String) (hs : storeAfter puts = .ok s)
    (hconf : ¬ (u ≠ "" ∧ u ≠ requestCode upper code u))
    (hcode : MatchString codeRegex (requestCode upper code u) = true) (hname : name ≠ "") :
    (∀ p : ℚ, ∃ svc' rsp,
      Service.HandleItemPut { store := s } upper (.ok { Code := code, Name := name, Price := p }) u
        = .ok (svc', rsp) ∧
      (rsp.status = StatusOK ↔ (0 < p ∧ p ≤ 9999)) ∧
      (p = 0 → rsp = errorResponse StatusUnprocessableEntity "missing price" ∧
        svc' = { store := s }) ∧
      (p < 0 → rsp = errorResponse StatusUnprocessableEntity "negative price" ∧
        svc' = { store := s }) ∧
      (9999 < p → rsp = errorResponse StatusUnprocessableEntity "price must be <= $10000" ∧
        svc' = { store := s })) ∧
    (∃ svc' rsp,
      Service.HandleItemPut { store := s } upper (.ok { Code := code, Name := name, Price := 0 }) u
        = .ok (svc', rsp) ∧ rsp.status = StatusUnprocessableEntity) ∧
    (∃ svc' rsp,
      Service.HandleItemPut { store := s } upper (.ok { Code := code, Name := name, Price := -2 }) u
        = .ok (svc', rsp) ∧ rsp.status = StatusUnprocessableEntity) ∧
    (∃ svc' rsp,
      Service.HandleItemPut { store := s } upper
          (.ok { Code := code, Name := name, Price := 10000 }) u
        = .ok (svc', rsp) ∧ rsp.status = StatusUnprocessableEntity) ∧
    (∃ svc' rsp,
      Service.HandleItemPut { store := s } upper
          (.ok { Code := code, Name := name, Price := 4.99 }) u
        = .ok (svc', rsp) ∧ rsp.status = StatusOK) := by
  have hasc := ascending_of_storeAfter hs
  have hne := matchString_ne_empty hcode
  have hm : ¬ MatchString codeRegex (requestCode upper code u) = false := by simp [hcode]
  have key : ∀ p : ℚ, ∃ svc' rsp,
      Service.HandleItemPut { store := s } upper (.ok { Code := code, Name := name, Price := p }) u
        = .ok (svc', rsp) ∧
      (rsp.status = StatusOK ↔ (0 < p ∧ p ≤ 9999)) ∧
      (p = 0 → rsp = errorResponse StatusUnprocessableEntity "missing price" ∧
        svc' = { store := s }) ∧
      (p < 0 → rsp = errorResponse StatusUnprocessableEntity "negative price" ∧
        svc' = { store := s }) ∧
      (9999 < p → rsp = errorResponse StatusUnprocessableEntity "price must be <= $10000" ∧
        svc' = { store := s }) := by
    intro p
    by_cases h5 : p = 0
    · refine ⟨{ store := s }, _, by
        rw [HandleItemPut_parsed, if_neg hconf, if_neg hne, if_neg hm, if_neg hname, if_pos h5],
        ?_, fun _ => ⟨rfl, rfl⟩, ?_, ?_⟩
      · constructor
        · intro h
          exact absurd h (errorResponse_status_ne_ok_unprocessable _)
        · intro h
          exact absurd h5 (ne_of_gt h.1)
      · intro h
        exact absurd h5 (ne_of_lt h)
      · intro h
        rw [h5] at h
        exact absurd h (by norm_num)
    by_cases h6 : p < 0
    · refine ⟨{ store := s }, _, by
        rw [HandleItemPut_parsed, if_neg hconf, if_neg hne, if_neg hm, if_neg hname, if_neg h5,
          if_pos h6],
        ?_, fun h => absurd h h5, fun _ => ⟨rfl, rfl⟩, ?_⟩
      · constructor
        · intro h
          exact absurd h (errorResponse_status_ne_ok_unprocessable _)
        · intro h
          exact absurd h6 (not_lt.2 (le_of_lt h.1))
      · intro h
        exact absurd (lt_trans h h6) (by norm_num)
    by_cases h7 : p > 9999
    · refine ⟨{ store := s }, _, by
        rw [HandleItemPut_parsed, if_neg hconf, if_neg hne, if_neg hm, if_neg hname, if_neg h5,
          if_neg h6, if_pos h7],
        ?_, fun h => absurd h h5, fun h => absurd h h6, fun _ => ⟨rfl, rfl⟩⟩
      constructor
      · intro h
        exact absurd h (errorResponse_status_ne_ok_unprocessable _)
      · intro h
        exact absurd h7 (not_lt.2 h.2)
    have hpos : 0 < p := lt_of_le_of_ne (not_lt.1 h6) (Ne.symm h5)
    have hmax : p ≤ 9999 := not_lt.1 h7
    obtain ⟨st, _, _, hout⟩ := HandleItemPut_accept { store := s } hasc upper
      { Code := code, Name := name, Price := p } u hconf hne hcode hname hpos hmax
    exact ⟨{ store := st }, _, hout, ⟨fun _ => ⟨hpos, hmax⟩, fun _ => rfl⟩,
      fun h => absurd h h5, fun h => absurd h h6, fun h => absurd h h7⟩
  refine ⟨key, ?_, ?_, ?_, ?_⟩
  · obtain ⟨svc', rsp, h1, _, h3, _, _⟩ := key 0
    exact ⟨svc', rsp, h1, by rw [(h3 rfl).1]; rfl⟩
  · obtain ⟨svc', rsp, h1, _, _, h4, _⟩ := key (-2)
    exact ⟨svc', rsp, h1, by rw [(h4 (by norm_num)).1]; rfl⟩
  · obtain ⟨svc', rsp, h1, _, _, _, h5⟩ := key 10000
    exact ⟨svc', rsp, h1, by rw [(h5 (by norm_num)).1]; rfl⟩
  · obtain ⟨svc', rsp, h1, h2, _, _, _⟩ := key 4.99
    exact ⟨svc', rsp, h1, h2.2 (by norm_num)⟩

theorem C15_price_boundary_witness :
    storeAfter [] = .ok NewStore ∧
      ¬ (("" : String) ≠ "" ∧ "" ≠ requestCode Char.toUpper "mmmm-mmmm-mmmm-mmmm" "") ∧
      MatchString codeRegex (requestCode Char.toUpper "mmmm-mmmm-mmmm-mmmm" "") = true ∧
      ("Mango" : String) ≠ "" ∧
      ∃ svc' rsp,
        Service.HandleItemPut { store := NewStore } Char.toUpper
            (.ok { Code := "mmmm-mmmm-mmmm-mmmm", Name := "Mango", Price := 4.99 }) ""
          = .ok (svc', rsp) ∧ rsp.status = StatusOK :=
  ⟨rfl, by decide, by decide, by decide,
    (C15_price_boundary Char.toUpper [] NewStore "" "mmmm-mmmm-mmmm-mmmm" "Mango" rfl (by decide)
      (by decide) (by decide)).2.2.2.2⟩


/-- A request that is answered as a bad request or as unprocessable leaves
the service as it was, whatever the store holds. -/
theorem HandleItemPut_rejected (svc svc1 : Service) (upper : Char → Char)
    (body : Except String item) (u : String) (rsp1 : Response)
    (hout : svc.HandleItemPut upper body u = .ok (svc1, rsp1))
    (hst : rsp1.status = StatusBadRequest ∨ rsp1.status = StatusUnprocessableEntity) :
    svc1 = svc := by
  cases body with
  | error err =>
    simp only [Service.HandleItemPut] at hout
    injection hout with hout
    injection hout with h1 _
    exact h1.symm
  | ok it =>
    rw [HandleItemPut_parsed] at hout
    split_ifs at hout
    all_goals first
      | (injection hout with hout
         injection hout with h1 _
         exact h1.symm)
      | skip
    cases hput : svc.store.Put
        { Code := requestCode upper it.Code u, Name := it.Name, Price := it.Price } with
    | error e =>
      rw [hput] at hout
      cases hout
    | ok st =>
      rw [hput] at hout
      simp only [Service.HandleItemGet] at hout
      cases hget : st.Get (requestCode upper it.Code u) with
      | error e =>
        rw [hget] at hout
        cases hout
      | ok found =>
        rw [hget] at hout
        cases found with
        | none =>
          simp only [] at hout
          injection hout with hout
          injection hout with _ h2
          subst h2
          simp [errorResponse, StatusNotFound, StatusBadRequest, StatusUnprocessableEntity] at hst
        | some x =>
          simp only [] at hout
          injection hout with hout
          injection hout with _ h2
          subst h2
          simp [StatusOK, StatusBadRequest, StatusUnprocessableEntity] at hst

/-- C16, atomicity on error: on a store reached by `Put` calls, every
create/update request completes with status 200, 400 or 422, and when the
status is not 200 (payload that does not parse, conflicting codes, missing or
malformed code, missing name, bad price) the items of the store are those of
before, so that every later `Get` and `List` answers as before the request;
and on any store at all, a request answered with 400 or 422 leaves the store
as it was. -/
theorem C16_atomic_on_error (upper : Char → Char) (puts : List item)
    (body : Except String item) (u : String) :
    (∃ s svc' rsp, storeAfter puts = .ok s ∧
      Service.HandleItemPut { store := s } upper body u = .ok (svc', rsp) ∧
      (rsp.status = StatusOK ∨ rsp.status = StatusBadRequest ∨
        rsp.status = StatusUnprocessableEntity) ∧
      (rsp.status ≠ StatusOK →
        svc'.store.items = s.items ∧
        (∀ code : String, svc'.store.Get code = s.Get code) ∧
        (∀ (cursor : String) (count : Int),
          svc'.store.List cursor count = s.List cursor count))) ∧
    ∀ (s0 : Store) (svc1 : Service) (rsp1 : Response),
      Service.HandleItemPut { store := s0 } upper body u = .ok (svc1, rsp1) →
      (rsp1.status = StatusBadRequest ∨ rsp1.status = StatusUnprocessableEntity) →
      svc1.store.items = s0.items := by
  obtain ⟨s, hs, hasc⟩ := storeAfter_spec puts
  obtain ⟨svc', rsp, hout, _, hst, _⟩ := HandleItemPut_spec { store := s } hasc upper body u
  refine ⟨⟨s, svc', rsp, hs, hout, ?_, ?_⟩, ?_⟩
  · rcases hst with h | ⟨_, h | h⟩
    · exact Or.inl h
    · exact Or.inr (Or.inl h)
    · exact Or.inr (Or.inr h)
  · intro hne
    rcases hst with h | ⟨h, _⟩
    · exact absurd h hne
    · subst h
      exact ⟨rfl, fun _ => rfl, fun _ _ => rfl⟩
  · intro s0 svc1 rsp1 h1 h2
    rw [HandleItemPut_rejected _ _ upper body u rsp1 h1 h2]

/-! ## The data-model invariant -/

theorem staticData_valid : ∀ x ∈ staticData, validItem x := by
  intro x hx
  simp only [staticData, List.mem_cons, List.mem_singleton, List.not_mem_nil, or_false] at hx
  rcases hx with rfl | rfl | rfl | rfl
  · exact ⟨by decide, by decide, by norm_num, by norm_num⟩
  · exact ⟨by decide, by decide, by norm_num, by norm_num⟩
  · exact ⟨by decide, by decide, by norm_num, by norm_num⟩
  · exact ⟨by decide, by decide, by norm_num, by norm_num⟩

theorem handleAll_spec (upper : Char → Char) :
    ∀ (reqs : List (Except String item × String)) (svc : Service),
      Ascending svc.store.items → (∀ x ∈ svc.store.items, validItem x) →
      ∃ svc', handleAll upper svc reqs = .ok svc' ∧ Ascending svc'.store.items ∧
        ∀ x ∈ svc'.store.items, validItem x
  | [], svc, hasc, hval => ⟨svc, rfl, hasc, hval⟩
  | (body, u) :: rest, svc, hasc, hval => by
    obtain ⟨svc1, rsp, hout, hasc1, _, hmem⟩ := HandleItemPut_spec svc hasc upper body u
    have hval1 : ∀ x ∈ svc1.store.items, validItem x := by
      intro x hx
      rcases hmem x hx with h | h
      · exact hval x h
      · exact h
    obtain ⟨svc2, h2, hasc2, hval2⟩ := handleAll_spec upper rest svc1 hasc1 hval1
    exact ⟨svc2, by simp [handleAll, hout, h2], hasc2, hval2⟩

/-- C19, data-model invariant through the handler: the four seed items have a
code of the canonical pattern, a non-empty name and a price above 0 and at
most 9999, and after any sequence of create/update requests (accepted or
rejected, with any code in the URL) on the fresh store every stored item has
them too. -/
theorem C19_handler_invariant (upper : Char → Char)
    (reqs : List (Except String item × String)) :
    (∀ x ∈ staticData, validItem x) ∧
      ∃ svc, handleAll upper { store := NewStore } reqs = .ok svc ∧
        ∀ x ∈ svc.store.items,
          MatchString codeRegex x.Code = true ∧ canonicalCode x.Code ∧ x.Name ≠ "" ∧
            0 < x.Price ∧ x.Price ≤ 9999 := by
  refine ⟨staticData_valid, ?_⟩
  obtain ⟨svc, h1, _, h3⟩ := handleAll_spec upper reqs { store := NewStore }
    staticData_ascending staticData_valid
  refine ⟨svc, h1, ?_⟩
  intro x hx
  obtain ⟨a, b, c, d⟩ := h3 x hx
  exact ⟨a, (matchString_iff_canonical _).1 a, b, c, d⟩



/-! ## Pagination across writes -/

theorem putAll_append : ∀ (a b : List item) (s : Store),
    putAll s (a ++ b) = match putAll s a with
      | .error e => .error e
      | .ok s' => putAll s' b
  | [], b, s => rfl
  | x :: a, b, s => by
    simp only [List.cons_append, putAll]
    cases s.Put x with
    | error e => rfl
    | ok s1 => exact putAll_append a b s1

theorem itemsAfter_last_of_ne {items : List item} (h : Ascending items) (cursor : String)
    {n : Nat} {last : item} (hn : 1 ≤ n) (hlast : (itemsAfter items cursor)[n - 1]? = some last)
    (hne : last.Code ≠ "") :
    itemsAfter items last.Code = (itemsAfter items cursor).drop n := by
  obtain ⟨r, _, _, hdrop⟩ := startIdx_spec h cursor
  rw [← hdrop] at hlast ⊢
  rw [List.getElem?_drop] at hlast
  rw [List.drop_drop]
  simp only [itemsAfter, hne, if_false]
  have hrn : r + n = r + (n - 1) + 1 := by omega
  rw [hrn]
  apply filter_eq_drop
  · intro k a hk ha
    rw [strLess_eq_false_iff]
    by_cases hk2 : k < r + (n - 1)
    · exact le_of_lt (h.lt_of_lt hk2 ha hlast)
    · have : k = r + (n - 1) := by omega
      subst this
      rw [hlast] at ha
      cases ha
      exact le_refl _
  · intro k a hk ha
    rw [strLess_iff_lt]
    exact h.lt_of_lt (by omega) hlast ha

theorem paginate_from {s : Store} (h : Ascending s.items) {count : Int} (hcount : 1 ≤ count) :
    ∀ (fuel : Nat) (cursor : String), (∀ x ∈ itemsAfter s.items cursor, x.Code ≠ "") →
      (itemsAfter s.items cursor).length < fuel →
      paginate s count fuel cursor = .ok (itemsAfter s.items cursor)
  | 0, _, _, hf => absurd hf (Nat.not_lt_zero _)
  | fuel + 1, cursor, hne, hf => by
    have hn : 1 ≤ count.toNat := by omega
    simp only [paginate, List_spec h cursor hcount]
    by_cases hlt : count.toNat < (itemsAfter s.items cursor).length
    · have hidx : count.toNat - 1 < (itemsAfter s.items cursor).length := by omega
      have hlast := List.getElem?_eq_getElem hidx
      have hcode : ((itemsAfter s.items cursor)[count.toNat - 1]).Code ≠ "" :=
        hne _ (List.getElem_mem hidx)
      have hnext : nextCursorOf (itemsAfter s.items cursor) count.toNat
          = ((itemsAfter s.items cursor)[count.toNat - 1]).Code := by
        simp [nextCursorOf, hlt, hlast]
      have hrec := itemsAfter_last_of_ne h cursor hn hlast hcode
      have ih := paginate_from h hcount fuel
        ((itemsAfter s.items cursor)[count.toNat - 1]).Code (by
          rw [hrec]
          intro x hx
          exact hne x (List.mem_of_mem_drop hx)) (by
          rw [hrec, List.length_drop]
          omega)
      rw [hnext, if_neg hcode, ih, hrec]
      simp
    · have hnext : nextCursorOf (itemsAfter s.items cursor) count.toNat = "" := by
        unfold nextCursorOf
        rw [if_neg hlt]
      rw [hnext]
      simp only [if_true]
      rw [List.take_of_length_le (by omega)]

theorem page_le_nextCursor {l : List item} (h : Ascending l) {k : Nat}
    (hne : nextCursorOf l k ≠ "") :
    ∀ p ∈ l.take k, p.Code ≤ nextCursorOf l k := by
  have hlt : k < l.length := by
    by_contra hcon
    exact hne (by unfold nextCursorOf; rw [if_neg hcon])
  intro p hp
  obtain ⟨j, hj⟩ := List.mem_iff_getElem?.1 hp
  have hjk : j < k := by
    by_contra hcon
    rw [List.getElem?_eq_none (by rw [List.length_take]; omega)] at hj
    cases hj
  rw [List.getElem?_take_of_lt hjk] at hj
  have hidx : k - 1 < l.length := by omega
  have hlast : l[k - 1]? = some l[k - 1] := List.getElem?_eq_getElem hidx
  have hnext : nextCursorOf l k = (l[k - 1]).Code := by
    simp [nextCursorOf, hlt, hlast]
  rw [hnext]
  by_cases hj2 : j < k - 1
  · exact le_of_lt (h.lt_of_lt hj2 hj hlast)
  · have : j = k - 1 := by omega
    subst this
    rw [hlast] at hj
    cases hj
    exact le_refl _

/-- C17, pagination stability under writes: on a store `s` reached by `Put`
calls, when `List` returns a non-empty page `P` and a non-empty next cursor
`n`, then on every store `s2` that further `Put` calls lead to, every item
that `List(n, count2)` returns has a code above the code of every item of
`P`, and the pagination continued from `n` ends and delivers exactly the
items of `s2` whose code is above `n`, none of which is an item of `P`. -/
theorem C17_pagination_stable (puts more : List item) (s : Store) (cursor : String)
    (count count2 : Int) (P : List item) (n : String)
    (hs : storeAfter puts = .ok s) (hcount : 1 ≤ count) (hcount2 : 1 ≤ count2)
    (hP : s.List cursor count = .ok (P, n)) (hPne : P ≠ []) (hn : n ≠ "") :
    ∃ s2 page next, putAll s more = .ok s2 ∧ storeAfter (puts ++ more) = .ok s2 ∧
      s2.List n count2 = .ok (page, next) ∧
      (∀ x ∈ page, ∀ p ∈ P, strLess p.Code x.Code = true) ∧
      (∀ fuel : Nat, s2.items.length < fuel →
        paginate s2 count2 fuel n = .ok (s2.items.filter (fun x => strLess n x.Code))) ∧
      (∀ x ∈ s2.items, strLess n x.Code = true →
        x ∈ s2.items.filter (fun x => strLess n x.Code)) ∧
      (∀ x ∈ s2.items.filter (fun x => strLess n x.Code), ∀ p ∈ P,
        strLess p.Code x.Code = true) := by
  have hasc := ascending_of_storeAfter hs
  have _hP := hPne
  obtain ⟨s2, hs2, hasc2⟩ := putAll_spec more s hasc
  have hs2' : storeAfter (puts ++ more) = .ok s2 := by
    unfold storeAfter at hs ⊢
    rw [putAll_append, hs]
    exact hs2
  rw [List_spec hasc cursor hcount] at hP
  injection hP with hP
  injection hP with hP1 hP2
  have hle : ∀ p ∈ P, p.Code ≤ n := by
    intro p hp
    rw [← hP1] at hp
    rw [← hP2]
    exact page_le_nextCursor (ascending_itemsAfter hasc cursor) (by rw [hP2]; exact hn) p hp
  have hS : itemsAfter s2.items n = s2.items.filter (fun x => strLess n x.Code) := by
    simp [itemsAfter, hn]
  have habove : ∀ x ∈ s2.items.filter (fun x => strLess n x.Code), ∀ p ∈ P,
      strLess p.Code x.Code = true := by
    intro x hx p hp
    have h1 : n < x.Code := (strLess_iff_lt _ _).1 (List.mem_filter.1 hx).2
    exact (strLess_iff_lt _ _).2 (lt_of_le_of_lt (hle p hp) h1)
  refine ⟨s2, _, _, hs2, hs2', List_spec hasc2 n hcount2, ?_, ?_, ?_, habove⟩
  · intro x hx p hp
    have hx2 : x ∈ itemsAfter s2.items n := List.mem_of_mem_take hx
    rw [hS] at hx2
    exact habove x hx2 p hp
  · intro fuel hfuel
    rw [← hS]
    apply paginate_from hasc2 hcount2
    · intro x hx
      rw [hS] at hx
      have h1 : n < x.Code := (strLess_iff_lt _ _).1 (List.mem_filter.1 hx).2
      intro h0
      rw [h0] at h1
      have h2 : ("" : String) ≤ n := by
        rw [← strLess_eq_false_iff]
        cases hc : strLess n "" with
        | false => rfl
        | true => exact absurd hc (by simp [strLess, lessChars])
      exact absurd (lt_of_lt_of_le h1 h2) (lt_irrefl _)
    · rw [hS]
      exact lt_of_le_of_lt (List.length_filter_le _ _) hfuel
  · intro x hx hxn
    exact List.mem_filter.2 ⟨hx, hxn⟩

theorem C17_pagination_stable_witness :
    storeAfter [] = .ok NewStore ∧ (1 : Int) ≤ 2 ∧ (1 : Int) ≤ 3 ∧
      NewStore.List "" 2 = .ok (staticData.take 2, "E5T6-9UI3-TH15-QR88") ∧
      staticData.take 2 ≠ [] ∧ ("E5T6-9UI3-TH15-QR88" : String) ≠ "" ∧
      ∃ s2 page next,
        putAll NewStore [{ Code := "MMMM-MMMM-MMMM-MMMM", Name := "Mango", Price := 2 },
          { Code := "0000-0000-0000-0000", Name := "Avocado", Price := 3 }] = .ok s2 ∧
        storeAfter ([] ++ [{ Code := "MMMM-MMMM-MMMM-MMMM", Name := "Mango", Price := 2 },
          { Code := "0000-0000-0000-0000", Name := "Avocado", Price := 3 }]) = .ok s2 ∧
        s2.List "E5T6-9UI3-TH15-QR88" 3 = .ok (page, next) ∧
        (∀ x ∈ page, ∀ p ∈ staticData.take 2, strLess p.Code x.Code = true) ∧
        (∀ fuel : Nat, s2.items.length < fuel →
          paginate s2 3 fuel "E5T6-9UI3-TH15-QR88"
            = .ok (s2.items.filter (fun x => strLess "E5T6-9UI3-TH15-QR88" x.Code))) ∧
        (∀ x ∈ s2.items, strLess "E5T6-9UI3-TH15-QR88" x.Code = true →
          x ∈ s2.items.filter (fun x => strLess "E5T6-9UI3-TH15-QR88" x.Code)) ∧
        (∀ x ∈ s2.items.filter (fun x => strLess "E5T6-9UI3-TH15-QR88" x.Code),
          ∀ p ∈ staticData.take 2, strLess p.Code x.Code = true) :=
  ⟨rfl, by decide, by decide, rfl, by simp [staticData], by decide,
    C17_pagination_stable []
      [{ Code := "MMMM-MMMM-MMMM-MMMM", Name := "Mango", Price := 2 },
        { Code := "0000-0000-0000-0000", Name := "Avocado", Price := 3 }]
      NewStore "" 2 3 (staticData.take 2) "E5T6-9UI3-TH15-QR88" rfl (by decide) (by decide) rfl
      (by simp [staticData]) (by decide)⟩


/-! ## Counts below zero -/

theorem List_negative_count {s : Store} (h : Ascending s.items) (cursor : String) {count : Int}
    (hneg : count < 0) : s.List cursor count = .error .makesliceCapOutOfRange := by
  obtain ⟨r, hr, hlen, _⟩ := startIdx_spec h cursor
  have hc0 : count ≠ 0 := by omega
  have hbig : ¬ count > (s.items.length : Int) - (r : Int) := by omega
  unfold Store.List
  rw [if_neg hc0, hr]
  simp only []
  rw [if_neg hbig, if_neg hc0, if_pos hneg]

theorem List_nonneg_count {s : Store} (h : Ascending s.items) (cursor : String) {count : Int}
    (hcount : 0 ≤ count) : ∃ page next, s.List cursor count = .ok (page, next) := by
  by_cases h0 : count = 0
  · exact ⟨[], cursor, by simp [Store.List, h0]⟩
  · exact ⟨_, _, List_spec h cursor (by omega)⟩

/-- C18 fails on the code: on the fresh store `List("", -1)` reaches
`make([]item, 0, count)` with a negative capacity and panics, and so does the
list handler for the query `count=-1`, which it forwards as it is. -/
theorem C18_negative_count_panics :
    NewStore.List "" (-1) = .error .makesliceCapOutOfRange ∧
      NewStore.List "A12T-4GH7-QPL9-3N4M" (-3) = .error .makesliceCapOutOfRange ∧
      Service.HandleItemsList { store := NewStore } Char.toUpper (some (.ok (-1))) ""
        = .error .makesliceCapOutOfRange :=
  ⟨rfl, rfl, rfl⟩

/-! ## Pagination completeness -/

theorem strLess_empty_right (a : String) : strLess a "" = false := by
  simp [strLess, lessChars]

theorem paginate_whole {s : Store} (h : Ascending s.items) {count : Int} (hcount : 1 ≤ count)
    (hcodes : 2 ≤ count ∨ ∀ x ∈ s.items, x.Code ≠ "") :
    ∀ fuel : Nat, s.items.length < fuel → paginate s count fuel "" = .ok s.items := by
  rcases hcodes with h2 | hne
  · intro fuel hfuel
    have hS : itemsAfter s.items "" = s.items := by simp [itemsAfter]
    cases fuel with
    | zero => exact absurd hfuel (Nat.not_lt_zero _)
    | succ fuel =>
      have hn : 1 ≤ count.toNat := by omega
      simp only [paginate, List_spec h "" hcount, hS]
      by_cases hlt : count.toNat < s.items.length
      · have hidx : count.toNat - 1 < s.items.length := by omega
        have hlast : s.items[count.toNat - 1]? = some s.items[count.toNat - 1] :=
          List.getElem?_eq_getElem hidx
        have hfirst : s.items[0]? = some s.items[0] := List.getElem?_eq_getElem (by omega)
        have hcode : (s.items[count.toNat - 1]).Code ≠ "" := by
          intro h0
          have hlt2 := h.lt_of_lt (show 0 < count.toNat - 1 by omega) hfirst hlast
          rw [h0, ← strLess_iff_lt, strLess_empty_right] at hlt2
          exact absurd hlt2 (by simp)
        have hnext : nextCursorOf s.items count.toNat = (s.items[count.toNat - 1]).Code := by
          simp [nextCursorOf, hlt, hlast]
        have hrec : itemsAfter s.items (s.items[count.toNat - 1]).Code
            = s.items.drop count.toNat := by
          have := itemsAfter_last_of_ne h "" hn (by rw [hS]; exact hlast) hcode
          rw [hS] at this
          exact this
        have ih := paginate_from h hcount fuel (s.items[count.toNat - 1]).Code (by
          intro x hx
          have hx2 : x ∈ s.items.filter (fun y => strLess (s.items[count.toNat - 1]).Code y.Code) := by
            simpa [itemsAfter, hcode] using hx
          have h1 := (List.mem_filter.1 hx2).2
          intro h0
          rw [h0, strLess_empty_right] at h1
          exact absurd h1 (by simp)) (by
          rw [hrec, List.length_drop]
          omega)
        rw [hnext, if_neg hcode, ih, hrec]
        simp
      · have hnext : nextCursorOf s.items count.toNat = "" := by
          unfold nextCursorOf
          rw [if_neg hlt]
        rw [hnext]
        simp only [if_true]
        rw [List.take_of_length_le (by omega)]
  · intro fuel hfuel
    have hS : itemsAfter s.items "" = s.items := by simp [itemsAfter]
    have := paginate_spec h hne hcount fuel "" (by rw [hS]; exact hfuel)
    rw [hS] at this
    exact this

/-- C3 (amended), pagination completeness: on a store reached by `Put` calls,
for every page size of at least 2 with arbitrary items, and for the page size
1 when no item put has an empty code, the loop that starts at the empty
cursor and follows the next cursors until one is empty ends (any budget above
the number of stored items suffices) and the concatenation of its pages is
the stored sequence, which is strictly ascending, so every item comes exactly
once. -/
theorem C3_pagination_complete (puts : List item) (count : Int) (hcount : 1 ≤ count)
    (hcodes : 2 ≤ count ∨ ∀ it ∈ puts, it.Code ≠ "") :
    ∃ s, storeAfter puts = .ok s ∧ Ascending s.items ∧
      ∀ fuel : Nat, s.items.length < fuel → paginate s count fuel "" = .ok s.items := by
  obtain ⟨s, hs, hasc, hne⟩ := storeAfter_forall (fun x => ¬ 2 ≤ count → x.Code ≠ "") puts
    (by intro x hx _; revert x; decide)
    (by
      intro x hx hc
      rcases hcodes with h | h
      · exact absurd h hc
      · exact h x hx)
  refine ⟨s, hs, hasc, paginate_whole hasc hcount ?_⟩
  by_cases h2 : 2 ≤ count
  · exact Or.inl h2
  · exact Or.inr (fun x hx => hne x hx h2)

theorem C3_pagination_complete_witness :
    (1 : Int) ≤ 2 ∧
      ((2 : Int) ≤ 2 ∨
        ∀ it ∈ [({ Code := "", Name := "Turnip", Price := 1 } : item),
          { Code := "MMMM-MMMM-MMMM-MMMM", Name := "Mango", Price := 2 }], it.Code ≠ "") ∧
      ∃ s, storeAfter [{ Code := "", Name := "Turnip", Price := 1 },
          { Code := "MMMM-MMMM-MMMM-MMMM", Name := "Mango", Price := 2 }] = .ok s ∧
        Ascending s.items ∧
        ∀ fuel : Nat, s.items.length < fuel → paginate s 2 fuel "" = .ok s.items :=
  ⟨by decide, Or.inl (by decide),
    C3_pagination_complete [{ Code := "", Name := "Turnip", Price := 1 },
      { Code := "MMMM-MMMM-MMMM-MMMM", Name := "Mango", Price := 2 }] 2
      (by decide) (Or.inl (by decide))⟩

end Produce
